import Mathlib

/-
  Verification of the bittorrentclient repository: a shallow embedding of
  the bencode codec (src/bencode/bencode.go), the metainfo parser
  (src/torrent/torrent.go), the compact peer-list parser
  (src/torrent/tracker.go) and the single-piece download loop
  (src/client/client.go), together with proofs of the specified
  properties.

  Recursive functions are written to be kernel-reducible: loops whose
  termination depends on data (position scans, the decoder recursion)
  are indexed by an explicit fuel argument with structural recursion,
  and an adequacy lemma shows the fuel supplied by the top-level entry
  points never runs out, so the embedding computes exactly what the Go
  code computes.
-/

/-- Decidable equality for `Except` results, used to evaluate the
embedding at concrete inputs. -/
instance {e a : Type} [DecidableEq e] [DecidableEq a] : DecidableEq (Except e a) :=
  fun x y =>
    match x, y with
    | .error u, .error v =>
      if h : u = v then .isTrue (by rw [h]) else .isFalse (by simp [h])
    | .ok u, .ok v =>
      if h : u = v then .isTrue (by rw [h]) else .isFalse (by simp [h])
    | .error _, .ok _ => .isFalse (by simp)
    | .ok _, .error _ => .isFalse (by simp)

namespace Bencode

/-- Error outcomes of the bencode decoder in src/bencode/bencode.go.
`outOfFuel` is an artifact of the fuel-indexed embedding of the Go
recursion; the adequacy lemma below shows the fuel used by `Decode`
never runs out, so `Decode` never returns it. -/
inductive Err where
  | unexpectedEnd
  | invalidInput
  | invalidInteger
  | invalidStringLength
  | dictKeyNotString
  | outOfFuel
  deriving DecidableEq, Repr

/-- Bencode values as handled by the Go codec: byte strings (Go `string`
or `[]byte`), integers (Go `int`/`int64`), lists (`[]interface{}`) and
dictionaries (`map[string]interface{}`).  A Go map is an unordered
finite map; it is modelled canonically as an association list whose
keys are in strictly ascending byte order (lists with duplicate keys do
not arise from any Go map). -/
inductive BValue where
  | str : List Nat → BValue
  | int : Int → BValue
  | list : List BValue → BValue
  | dict : List (List Nat × BValue) → BValue

/-- Go string comparison `a < b`: lexicographic order on raw bytes. -/
def bytesLtB : List Nat → List Nat → Bool
  | [], [] => false
  | [], _ :: _ => true
  | _ :: _, [] => false
  | a :: as, b :: bs => a < b || (a == b && bytesLtB as bs)

/-- Go string comparison `a <= b`. -/
def bytesLeB (a b : List Nat) : Bool := !(bytesLtB b a)

/-- Fuel-indexed digit emitter behind `natDigits`. -/
def natDigitsAux : Nat → Nat → List Nat
  | 0, _ => []
  | f + 1, n => if n < 10 then [48 + n] else natDigitsAux f (n / 10) ++ [48 + n % 10]

/-- Decimal digits (ASCII codes) of a natural number, most significant
first; models Go `strconv.Itoa`/`FormatInt` for nonnegative input. -/
def natDigits (n : Nat) : List Nat := natDigitsAux (n + 1) n

/-- ASCII decimal form of an integer; models Go `strconv.FormatInt`. -/
def intDigits (n : Int) : List Nat :=
  if n < 0 then 45 :: natDigits n.natAbs else natDigits n.toNat

/-- ASCII decimal digit test. -/
def isDigit (b : Nat) : Bool := 48 ≤ b && b ≤ 57

/-- Numeric value of a digit sequence, most significant first. -/
def digitsVal (l : List Nat) : Nat := l.foldl (fun a d => 10 * a + (d - 48)) 0

/-- Model of Go `strconv.ParseInt(s, 10, 64)` (and of `strconv.Atoi` on
a 64-bit platform): an optional sign followed by at least one decimal
digit, rejected when the value overflows a signed 64-bit integer.
Returns `none` exactly when Go returns a non-nil error. -/
def parseIntGo (s : List Nat) : Option Int :=
  match s with
  | [] => none
  | c :: rest =>
    let neg : Bool := c == 45
    let digits := if c == 43 || c == 45 then rest else s
    if digits.isEmpty then none
    else if digits.all isDigit then
      let v := digitsVal digits
      if neg then (if v ≤ 2 ^ 63 then some (-(v : Int)) else none)
      else (if v ≤ 2 ^ 63 - 1 then some (v : Int) else none)
    else none

/-- Go slice expression `data[i:j]`. -/
def slice (data : List Nat) (i j : Nat) : List Nat := (data.take j).drop i

/-- Fuel-indexed scan behind `findFrom`. -/
def findFromAux : Nat → List Nat → Nat → Nat → Nat
  | 0, _, i, _ => i
  | f + 1, data, i, b =>
    if h : i < data.length then
      if data.get ⟨i, h⟩ = b then i else findFromAux f data (i + 1) b
    else i

/-- The scan loops of `decodeInt`/`decodeString`: the first position
`≥ i` holding byte `b`, or `data.length` if there is none. -/
def findFrom (data : List Nat) (i : Nat) (b : Nat) : Nat :=
  findFromAux data.length data i b

/-- `decodeInt` from src/bencode/bencode.go lines 99-120: scan for the
terminating `e`, then parse the decimal with `strconv.ParseInt`. -/
def decodeInt (data : List Nat) (start : Nat) : Except Err (BValue × Nat) :=
  if start < data.length ∧ data.getD start 0 = 105 then
    if findFrom data (start + 1) 101 < data.length then
      match parseIntGo (slice data (start + 1) (findFrom data (start + 1) 101)) with
      | some n => .ok (.int n, findFrom data (start + 1) 101 + 1)
      | none => .error .invalidInteger
    else .error .unexpectedEnd
  else .error .invalidInput

/-- `decodeString` from src/bencode/bencode.go lines 122-144: scan for
the colon, parse the length with `strconv.Atoi`, check bounds, slice.
(The parsed length is never negative at the call site, because `decode`
dispatches here only when the leading byte is a digit.) -/
def decodeString (data : List Nat) (start : Nat) : Except Err (BValue × Nat) :=
  if findFrom data start 58 < data.length then
    match parseIntGo (slice data start (findFrom data start 58)) with
    | some len =>
      if (findFrom data start 58 : Int) + 1 + len > data.length then .error .unexpectedEnd
      else .ok (.str (slice data (findFrom data start 58 + 1) (findFrom data start 58 + 1 + len.toNat)),
        findFrom data start 58 + 1 + len.toNat)
    | none => .error .invalidStringLength
  else .error .unexpectedEnd

/-- Go map assignment `dict[k] = v` on the canonical (key-sorted)
association-list representation of `map[string]interface{}`: insert in
order, replacing the entry of an already-present key. -/
def insertKV (acc : List (List Nat × BValue)) (k : List Nat) (v : BValue) :
    List (List Nat × BValue) :=
  match acc with
  | [] => [(k, v)]
  | (k', v') :: rest =>
    if bytesLtB k k' then (k, v) :: (k', v') :: rest
    else if k = k' then (k, v) :: rest
    else (k', v') :: insertKV rest k v

mutual

/-- `decode` from src/bencode/bencode.go lines 80-97, indexed by fuel
(the Go recursion has no fuel; adequacy below shows the fuel `Decode`
supplies is always sufficient). Dispatch on the leading byte. -/
def decodeAux : Nat → List Nat → Nat → Except Err (BValue × Nat)
  | 0, _, _ => .error .outOfFuel
  | fuel + 1, data, start =>
    if start < data.length then
      if data.getD start 0 = 105 then decodeInt data start
      else if data.getD start 0 = 108 then
        match decodeListItems fuel data (start + 1) with
        | .ok (l, p) => .ok (.list l, p)
        | .error e => .error e
      else if data.getD start 0 = 100 then
        match decodeDictItems fuel data (start + 1) [] with
        | .ok (d, p) => .ok (.dict d, p)
        | .error e => .error e
      else if isDigit (data.getD start 0) then decodeString data start
      else .error .invalidInput
    else .error .unexpectedEnd
termination_by structural fuel _ _ => fuel

/-- The element loop of `decodeList` (src/bencode/bencode.go lines
146-168): parse items until the closing `e`. -/
def decodeListItems : Nat → List Nat → Nat → Except Err (List BValue × Nat)
  | 0, _, _ => .error .outOfFuel
  | fuel + 1, data, pos =>
    if pos < data.length then
      if data.getD pos 0 = 101 then .ok ([], pos + 1)
      else
        match decodeAux fuel data pos with
        | .ok (v, p) =>
          match decodeListItems fuel data p with
          | .ok (vs, q) => .ok (v :: vs, q)
          | .error e => .error e
        | .error e => .error e
    else .error .unexpectedEnd
termination_by structural fuel _ _ => fuel

/-- The pair loop of `decodeDict` (src/bencode/bencode.go lines
170-205): parse a key (which must decode to a string), then a value,
write `dict[key] = value`, repeat until the closing `e`. -/
def decodeDictItems : Nat → List Nat → Nat → List (List Nat × BValue) →
    Except Err (List (List Nat × BValue) × Nat)
  | 0, _, _, _ => .error .outOfFuel
  | fuel + 1, data, pos, acc =>
    if pos < data.length then
      if data.getD pos 0 = 101 then .ok (acc, pos + 1)
      else
        match decodeAux fuel data pos with
        | .ok (k, p1) =>
          match k with
          | .str s =>
            match decodeAux fuel data p1 with
            | .ok (v, p2) => decodeDictItems fuel data p2 (insertKV acc s v)
            | .error e => .error e
          | _ => .error .dictKeyNotString
        | .error e => .error e
    else .error .unexpectedEnd
termination_by structural fuel _ _ _ => fuel

end

/-- `Decode` from src/bencode/bencode.go lines 75-78: parse one value
at position 0 and drop the final position (trailing bytes are never
reported to the caller).  The fuel `2 * data.length + 1` is adequate:
the adequacy lemma below shows the result is never `outOfFuel`. -/
def Decode (data : List Nat) : Except Err BValue :=
  (decodeAux (2 * data.length + 1) data 0).map Prod.fst

/-- Single-step unfolding of `decodeAux` at positive fuel. -/
theorem decodeAux_succ (fuel : Nat) (data : List Nat) (start : Nat) :
    decodeAux (fuel + 1) data start =
      (if start < data.length then
        if data.getD start 0 = 105 then decodeInt data start
        else if data.getD start 0 = 108 then
          match decodeListItems fuel data (start + 1) with
          | .ok (l, p) => .ok (.list l, p)
          | .error e => .error e
        else if data.getD start 0 = 100 then
          match decodeDictItems fuel data (start + 1) [] with
          | .ok (d, p) => .ok (.dict d, p)
          | .error e => .error e
        else if isDigit (data.getD start 0) then decodeString data start
        else .error .invalidInput
      else .error .unexpectedEnd) := rfl

/-- Single-step unfolding of `decodeListItems` at positive fuel. -/
theorem decodeListItems_succ (fuel : Nat) (data : List Nat) (pos : Nat) :
    decodeListItems (fuel + 1) data pos =
      (if pos < data.length then
        if data.getD pos 0 = 101 then .ok ([], pos + 1)
        else
          match decodeAux fuel data pos with
          | .ok (v, p) =>
            match decodeListItems fuel data p with
            | .ok (vs, q) => .ok (v :: vs, q)
            | .error e => .error e
          | .error e => .error e
      else .error .unexpectedEnd) := rfl

/-- Single-step unfolding of `decodeDictItems` at positive fuel. -/
theorem decodeDictItems_succ (fuel : Nat) (data : List Nat) (pos : Nat)
    (acc : List (List Nat × BValue)) :
    decodeDictItems (fuel + 1) data pos acc =
      (if pos < data.length then
        if data.getD pos 0 = 101 then .ok (acc, pos + 1)
        else
          match decodeAux fuel data pos with
          | .ok (k, p1) =>
            match k with
            | .str s =>
              match decodeAux fuel data p1 with
              | .ok (v, p2) => decodeDictItems fuel data p2 (insertKV acc s v)
              | .error e => .error e
            | _ => .error .dictKeyNotString
          | .error e => .error e
      else .error .unexpectedEnd) := rfl

/-- Nat-string encoding `<decimal length> : <bytes>`, shared by the
`string`/`[]byte` case of `encode` and by dictionary keys. -/
def encStr (s : List Nat) : List Nat := natDigits s.length ++ 58 :: s

/-- One step of the insertion sort modelling `sort.Strings` over the
dictionary keys in `encode`; a chunk is a key paired with the emitted
bytes of that key/value pair. -/
def insertChunk (p : List Nat × List Nat) :
    List (List Nat × List Nat) → List (List Nat × List Nat)
  | [] => [p]
  | q :: qs => if bytesLeB p.1 q.1 then p :: q :: qs else q :: insertChunk p qs

/-- Ascending key sort used by the dictionary case of `encode`,
modelling the `sort.Strings(keys)` call in src/bencode/bencode.go. -/
def sortChunks : List (List Nat × List Nat) → List (List Nat × List Nat)
  | [] => []
  | p :: ps => insertChunk p (sortChunks ps)

/-- Concatenate the emitted bytes of a chunk list. -/
def joinChunks : List (List Nat × List Nat) → List Nat
  | [] => []
  | p :: ps => p.2 ++ joinChunks ps

mutual

/-- `encode` from src/bencode/bencode.go lines 24-73.  Nat strings and
integers are emitted directly; lists concatenate member encodings; for
a dictionary every key/value pair is rendered (key as a byte string,
then its value) and the rendered pairs are emitted in ascending key
order, modelling the `sort.Strings(keys)` loop.  On the canonical
(key-sorted, duplicate-free) representation of a Go map this emits
exactly what the Go encoder emits. -/
def encode : BValue → List Nat
  | .str s => encStr s
  | .int n => 105 :: (intDigits n ++ [101])
  | .list l => 108 :: (encodeItems l ++ [101])
  | .dict d => 100 :: (joinChunks (sortChunks (pairChunks d)) ++ [101])
termination_by structural v => v

/-- The member loop of the `[]interface{}` case of `encode`. -/
def encodeItems : List BValue → List Nat
  | [] => []
  | v :: vs => encode v ++ encodeItems vs
termination_by structural l => l

/-- Renders every key/value pair of a dictionary: the key as a byte
string followed by the encoded value, kept keyed for sorting. -/
def pairChunks : List (List Nat × BValue) → List (List Nat × List Nat)
  | [] => []
  | (k, v) :: ps => (k, encStr k ++ encode v) :: pairChunks ps
termination_by structural l => l

end

/-- The emitted bytes of a pair sequence in the given order (the body
bytes of a dictionary encoding whose pairs appear in that order). -/
def encodePairs (ps : List (List Nat × BValue)) : List Nat :=
  joinChunks (pairChunks ps)

/-- `Encode` from src/bencode/bencode.go lines 16-22; on `BValue`
inputs the Go encoder never hits its `unsupported type` branch, so the
result is always the byte list. -/
def Encode (v : BValue) : List Nat := encode v

/-- Well-formed byte string: representable as a Go string (length fits
in a signed 64-bit `int`, each byte below 256). -/
def validStr (s : List Nat) : Bool :=
  decide (s.length ≤ 2 ^ 63 - 1) && s.all (fun b => b < 256)

mutual

/-- A `BValue` that denotes an actual Go value accepted by `Encode`:
integers fit in 64 bits, strings are representable, and dictionaries
are canonical association lists (strictly ascending keys — the faithful
image of an unordered Go map). -/
def validB : BValue → Bool
  | .str s => validStr s
  | .int n => decide (-(2 ^ 63) ≤ n) && decide (n ≤ 2 ^ 63 - 1)
  | .list l => validItems l
  | .dict d => validPairs d
termination_by structural v => v

/-- All members of a list are valid. -/
def validItems : List BValue → Bool
  | [] => true
  | v :: vs => validB v && validItems vs
termination_by structural l => l

/-- All pairs valid and keys strictly ascending. -/
def validPairs : List (List Nat × BValue) → Bool
  | [] => true
  | (k, v) :: ps =>
    validStr k && validB v &&
    (match ps with
     | [] => true
     | (k', _) :: _ => bytesLtB k k') && validPairs ps
termination_by structural l => l

end

/-! ### Order lemmas for the byte-wise string order -/

theorem bytesLtB_irrefl (a : List Nat) : bytesLtB a a = false := by
  induction a with
  | nil => rfl
  | cons x xs ih => simp [bytesLtB, ih]

theorem bytesLtB_asymm {a b : List Nat} (h : bytesLtB a b = true) :
    bytesLtB b a = false := by
  induction a generalizing b with
  | nil =>
    cases b with
    | nil => simp [bytesLtB] at h
    | cons y ys => rfl
  | cons x xs ih =>
    cases b with
    | nil => simp [bytesLtB] at h
    | cons y ys =>
      simp only [bytesLtB, Bool.or_eq_true, Bool.and_eq_true, beq_iff_eq,
        decide_eq_true_eq] at h
      simp only [bytesLtB, Bool.or_eq_false_iff, Bool.and_eq_false_iff,
        decide_eq_false_iff_not, beq_eq_false_iff_ne, ne_eq]
      rcases h with h | ⟨he, hlt⟩
      · constructor
        · omega
        · exact Or.inl (by omega)
      · subst he
        constructor
        · omega
        · exact Or.inr (ih hlt)

theorem bytesLtB_trans {a b c : List Nat} (h1 : bytesLtB a b = true)
    (h2 : bytesLtB b c = true) : bytesLtB a c = true := by
  induction a generalizing b c with
  | nil =>
    cases b with
    | nil => simp [bytesLtB] at h1
    | cons y ys =>
      cases c with
      | nil => simp [bytesLtB] at h2
      | cons z zs => rfl
  | cons x xs ih =>
    cases b with
    | nil => simp [bytesLtB] at h1
    | cons y ys =>
      cases c with
      | nil => simp [bytesLtB] at h2
      | cons z zs =>
        simp only [bytesLtB, Bool.or_eq_true, Bool.and_eq_true, beq_iff_eq,
          decide_eq_true_eq] at h1 h2 ⊢
        rcases h1 with h1 | ⟨he1, hl1⟩
        · rcases h2 with h2 | ⟨he2, hl2⟩
          · exact Or.inl (by omega)
          · exact Or.inl (by omega)
        · rcases h2 with h2 | ⟨he2, hl2⟩
          · exact Or.inl (by omega)
          · exact Or.inr ⟨by omega, ih hl1 hl2⟩

theorem bytesLtB_total (a b : List Nat) :
    bytesLtB a b = true ∨ a = b ∨ bytesLtB b a = true := by
  induction a generalizing b with
  | nil =>
    cases b with
    | nil => exact Or.inr (Or.inl rfl)
    | cons y ys => exact Or.inl rfl
  | cons x xs ih =>
    cases b with
    | nil => exact Or.inr (Or.inr rfl)
    | cons y ys =>
      rcases Nat.lt_trichotomy x y with h | h | h
      · exact Or.inl (by simp [bytesLtB, h])
      · subst h
        rcases ih ys with h' | h' | h'
        · exact Or.inl (by simp [bytesLtB, h'])
        · exact Or.inr (Or.inl (by rw [h']))
        · exact Or.inr (Or.inr (by simp [bytesLtB, h']))
      · exact Or.inr (Or.inr (by simp [bytesLtB, h]))

theorem bytesLeB_iff {a b : List Nat} :
    bytesLeB a b = true ↔ (bytesLtB a b = true ∨ a = b) := by
  unfold bytesLeB
  constructor
  · intro h
    rcases bytesLtB_total a b with h' | h' | h'
    · exact Or.inl h'
    · exact Or.inr h'
    · simp [h'] at h
  · intro h
    rcases h with h | h
    · simp [bytesLtB_asymm h]
    · subst h; simp [bytesLtB_irrefl]

theorem bytesLtB_of_leB_of_ne {a b : List Nat} (h : bytesLeB a b = true)
    (hne : a ≠ b) : bytesLtB a b = true := by
  rcases bytesLeB_iff.mp h with h' | h'
  · exact h'
  · exact absurd h' hne

/-! ### Decimal digit emission and parsing -/

theorem natDigitsAux_succ (f n : Nat) :
    natDigitsAux (f + 1) n =
      if n < 10 then [48 + n] else natDigitsAux f (n / 10) ++ [48 + n % 10] := rfl

theorem natDigitsAux_irrel :
    ∀ f g n, n < f → n < g → natDigitsAux f n = natDigitsAux g n := by
  intro f
  induction f with
  | zero => omega
  | succ f ih =>
    intro g n hf hg
    cases g with
    | zero => omega
    | succ g =>
      rw [natDigitsAux_succ, natDigitsAux_succ]
      by_cases h : n < 10
      · simp [h]
      · have hd : n / 10 < n := Nat.div_lt_self (by omega) (by omega)
        simp only [h, if_false]
        rw [ih g (n / 10) (by omega) (by omega)]

/-- Characteristic recursion of `natDigits`, mirroring the Go decimal
formatting loop. -/
theorem natDigits_eq (n : Nat) :
    natDigits n = if n < 10 then [48 + n] else natDigits (n / 10) ++ [48 + n % 10] := by
  show natDigitsAux (n + 1) n = _
  rw [natDigitsAux_succ]
  by_cases h : n < 10
  · simp [h]
  · have hd : n / 10 < n := Nat.div_lt_self (by omega) (by omega)
    simp only [h, if_false]
    unfold natDigits
    rw [natDigitsAux_irrel n (n / 10 + 1) (n / 10) (by omega) (by omega)]

theorem natDigits_digits : ∀ n, ∀ d ∈ natDigits n, 48 ≤ d ∧ d ≤ 57 := by
  intro n
  induction n using Nat.strong_induction_on with
  | _ n ih =>
    rw [natDigits_eq]
    by_cases h : n < 10
    · simp only [h, if_true, List.mem_singleton]
      rintro d rfl
      omega
    · have hd : n / 10 < n := Nat.div_lt_self (by omega) (by omega)
      simp only [h, if_false, List.mem_append, List.mem_singleton]
      rintro d (hm | rfl)
      · exact ih (n / 10) hd d hm
      · omega

theorem natDigits_ne_nil (n : Nat) : natDigits n ≠ [] := by
  rw [natDigits_eq]
  by_cases h : n < 10 <;> simp [h]

theorem digitsVal_append_digit (xs : List Nat) (d : Nat) :
    digitsVal (xs ++ [d]) = 10 * digitsVal xs + (d - 48) := by
  simp [digitsVal, List.foldl_append]

theorem digitsVal_natDigits : ∀ n, digitsVal (natDigits n) = n := by
  intro n
  induction n using Nat.strong_induction_on with
  | _ n ih =>
    rw [natDigits_eq]
    by_cases h : n < 10
    · simp only [h, if_true]
      simp [digitsVal]
    · have hd : n / 10 < n := Nat.div_lt_self (by omega) (by omega)
      simp only [h, if_false, digitsVal_append_digit, ih (n / 10) hd]
      omega

theorem parseIntGo_natDigits (n : Nat) (h : n ≤ 2 ^ 63 - 1) :
    parseIntGo (natDigits n) = some (n : Int) := by
  rcases hne : natDigits n with _ | ⟨c, rest⟩
  · exact absurd hne (natDigits_ne_nil n)
  · have hc : 48 ≤ c ∧ c ≤ 57 := by
      refine natDigits_digits n c ?_
      rw [hne]; exact List.mem_cons_self c rest
    have h43 : (c == 43) = false := by simp; omega
    have h45 : (c == 45) = false := by simp; omega
    have hall : (c :: rest).all isDigit = true := by
      rw [← hne]
      simp only [List.all_eq_true]
      intro d hd
      have := natDigits_digits n d hd
      simp [isDigit]; omega
    have hdv : digitsVal (c :: rest) = n := by rw [← hne, digitsVal_natDigits]
    simp [parseIntGo, h43, h45, hall, hdv]
    omega

theorem parseIntGo_intDigits (n : Int) (h1 : -(2 ^ 63) ≤ n) (h2 : n ≤ 2 ^ 63 - 1) :
    parseIntGo (intDigits n) = some n := by
  unfold intDigits
  by_cases hn : n < 0
  · simp only [hn, if_true]
    rcases hne : natDigits n.natAbs with _ | ⟨c, rest⟩
    · exact absurd hne (natDigits_ne_nil _)
    · have hall : (c :: rest).all isDigit = true := by
        rw [← hne]
        simp only [List.all_eq_true]
        intro d hd
        have := natDigits_digits n.natAbs d hd
        simp [isDigit]; omega
      have hdv : digitsVal (c :: rest) = n.natAbs := by
        rw [← hne, digitsVal_natDigits]
      have habs : n.natAbs ≤ 2 ^ 63 := by omega
      have hgoal : parseIntGo (45 :: c :: rest) = some (-(n.natAbs : Int)) := by
        simp [parseIntGo, hall, hdv]
        omega
      rw [hgoal]
      congr 1
      omega
  · simp only [hn, if_false]
    rw [parseIntGo_natDigits n.toNat (by omega)]
    congr 1
    omega

/-! ### Scan, index and slice lemmas -/

theorem findFromAux_succ (f : Nat) (data : List Nat) (i b : Nat) :
    findFromAux (f + 1) data i b =
      if h : i < data.length then
        (if data.get ⟨i, h⟩ = b then i else findFromAux f data (i + 1) b)
      else i := rfl

theorem findFromAux_of_ge (f : Nat) (data : List Nat) (i b : Nat)
    (h : data.length ≤ i) : findFromAux f data i b = i := by
  cases f with
  | zero => rfl
  | succ f => rw [findFromAux_succ, dif_neg (by omega)]

theorem findFromAux_ge : ∀ f (data : List Nat) i b, i ≤ findFromAux f data i b := by
  intro f
  induction f with
  | zero => intro data i b; exact Nat.le_refl i
  | succ f ih =>
    intro data i b
    rw [findFromAux_succ]
    by_cases h : i < data.length
    · rw [dif_pos h]
      by_cases hb : data.get ⟨i, h⟩ = b
      · rw [if_pos hb]
      · rw [if_neg hb]
        have := ih data (i + 1) b
        omega
    · rw [dif_neg h]

theorem findFromAux_irrel : ∀ f g (data : List Nat) i b,
    data.length - i ≤ f → data.length - i ≤ g →
    findFromAux f data i b = findFromAux g data i b := by
  intro f
  induction f with
  | zero =>
    intro g data i b hf hg
    rw [findFromAux_of_ge 0 data i b (by omega), findFromAux_of_ge g data i b (by omega)]
  | succ f ih =>
    intro g data i b hf hg
    cases g with
    | zero =>
      rw [findFromAux_of_ge _ data i b (by omega), findFromAux_of_ge _ data i b (by omega)]
    | succ g =>
      rw [findFromAux_succ, findFromAux_succ]
      by_cases h : i < data.length
      · rw [dif_pos h, dif_pos h]
        by_cases hb : data.get ⟨i, h⟩ = b
        · rw [if_pos hb, if_pos hb]
        · rw [if_neg hb, if_neg hb]
          exact ih g data (i + 1) b (by omega) (by omega)
      · rw [dif_neg h, dif_neg h]

/-- Characteristic recursion of `findFrom`, mirroring the Go scan loop. -/
theorem findFrom_eq (data : List Nat) (i b : Nat) :
    findFrom data i b =
      if h : i < data.length then
        (if data.get ⟨i, h⟩ = b then i else findFrom data (i + 1) b)
      else i := by
  by_cases h : i < data.length
  · rw [dif_pos h]
    unfold findFrom
    have h1 : data.length = (data.length - 1) + 1 := by omega
    conv_lhs => rw [h1]
    rw [findFromAux_succ, dif_pos h]
    by_cases hb : data.get ⟨i, h⟩ = b
    · rw [if_pos hb, if_pos hb]
    · rw [if_neg hb, if_neg hb]
      exact findFromAux_irrel _ _ data (i + 1) b (by omega) (by omega)
  · rw [dif_neg h]
    exact findFromAux_of_ge _ data i b (by omega)

theorem findFrom_ge (data : List Nat) (i b : Nat) : i ≤ findFrom data i b :=
  findFromAux_ge _ data i b

theorem get_append_cons (pre : List Nat) (x : Nat) (t : List Nat)
    (h : pre.length < (pre ++ x :: t).length) :
    (pre ++ x :: t).get ⟨pre.length, h⟩ = x := by
  rw [List.get_eq_getElem, List.getElem_append_right (Nat.le_refl pre.length)]
  simp

theorem getD_append_cons (pre : List Nat) (x : Nat) (t : List Nat) (d : Nat) :
    (pre ++ x :: t).getD pre.length d = x := by
  rw [List.getD_eq_getElem?_getD, List.getElem?_append_right (Nat.le_refl _)]
  simp

theorem getD_append_left {i : Nat} (pre t : List Nat) (d : Nat) (h : i < pre.length) :
    (pre ++ t).getD i d = pre.getD i d := by
  rw [List.getD_eq_getElem?_getD, List.getElem?_append_left h,
    ← List.getD_eq_getElem?_getD]

theorem findFrom_append_found : ∀ (mid pre rest : List Nat) (b : Nat),
    (∀ x ∈ mid, x ≠ b) →
    findFrom (pre ++ (mid ++ b :: rest)) pre.length b = pre.length + mid.length := by
  intro mid
  induction mid with
  | nil =>
    intro pre rest b _
    rw [findFrom_eq]
    have hlt : pre.length < (pre ++ ([] ++ b :: rest)).length := by simp
    rw [dif_pos hlt]
    have hget : (pre ++ ([] ++ b :: rest)).get ⟨pre.length, hlt⟩ = b :=
      get_append_cons pre b rest (by simp)
    rw [if_pos hget]
    simp
  | cons m mid' ih =>
    intro pre rest b hmem
    rw [findFrom_eq]
    have hlt : pre.length < (pre ++ ((m :: mid') ++ b :: rest)).length := by simp
    rw [dif_pos hlt]
    have hget : (pre ++ ((m :: mid') ++ b :: rest)).get ⟨pre.length, hlt⟩ = m := by
      have := get_append_cons pre m (mid' ++ b :: rest)
        (by simp)
      simpa using this
    rw [hget, if_neg (hmem m (List.mem_cons_self m mid'))]
    have hsh : pre ++ ((m :: mid') ++ b :: rest) = (pre ++ [m]) ++ (mid' ++ b :: rest) := by
      simp
    have hlen : pre.length + 1 = (pre ++ [m]).length := by simp
    rw [hsh, hlen, ih (pre ++ [m]) rest b (fun x hx => hmem x (List.mem_cons_of_mem m hx))]
    simp
    omega

theorem findFrom_ext_aux (data ext : List Nat) (b : Nat) :
    ∀ n i, data.length - i = n → findFrom data i b < data.length →
    findFrom (data ++ ext) i b = findFrom data i b := by
  intro n
  induction n with
  | zero =>
    intro i hn h
    rw [findFrom_eq data i b, dif_neg (by omega)] at h
    omega
  | succ n ih =>
    intro i hn h
    have hi : i < data.length := by omega
    have hi' : i < (data ++ ext).length := by simp; omega
    have hget : (data ++ ext).get ⟨i, hi'⟩ = data.get ⟨i, hi⟩ := by
      rw [List.get_eq_getElem, List.get_eq_getElem, List.getElem_append_left hi]
    by_cases hb : data.get ⟨i, hi⟩ = b
    · have h1 : findFrom data i b = i := by
        rw [findFrom_eq, dif_pos hi, if_pos hb]
      have h2 : findFrom (data ++ ext) i b = i := by
        rw [findFrom_eq, dif_pos hi', hget, if_pos hb]
      rw [h1, h2]
    · have h1 : findFrom data i b = findFrom data (i + 1) b := by
        rw [findFrom_eq, dif_pos hi, if_neg hb]
      have h2 : findFrom (data ++ ext) i b = findFrom (data ++ ext) (i + 1) b := by
        rw [findFrom_eq, dif_pos hi', hget, if_neg hb]
      rw [h1] at h
      rw [h1, h2]
      exact ih (i + 1) (by omega) h

theorem findFrom_append_ext (data ext : List Nat) (i b : Nat)
    (h : findFrom data i b < data.length) :
    findFrom (data ++ ext) i b = findFrom data i b :=
  findFrom_ext_aux data ext b (data.length - i) i rfl h

theorem slice_append_exact (pre mid rest : List Nat) :
    slice (pre ++ (mid ++ rest)) pre.length (pre.length + mid.length) = mid := by
  unfold slice
  rw [← List.append_assoc, List.take_left' (by simp)]
  exact List.drop_left' rfl

theorem slice_append_of_le (data ext : List Nat) (i j : Nat) (h : j ≤ data.length) :
    slice (data ++ ext) i j = slice data i j := by
  unfold slice
  rw [List.take_append_of_le_length h]

/-! ### Correctness of the primitive decoders on encoded segments -/

theorem decodeInt_seg (pre digits rest : List Nat) (n : Int)
    (hd : parseIntGo digits = some n) (hne : ∀ x ∈ digits, x ≠ 101) :
    decodeInt (pre ++ 105 :: (digits ++ 101 :: rest)) pre.length =
      .ok (.int n, pre.length + digits.length + 2) := by
  have hGetD : (pre ++ 105 :: (digits ++ 101 :: rest)).getD pre.length 0 = 105 :=
    getD_append_cons pre 105 (digits ++ 101 :: rest) 0
  have hlt : pre.length < (pre ++ 105 :: (digits ++ 101 :: rest)).length := by
    simp
  have hf : findFrom (pre ++ 105 :: (digits ++ 101 :: rest)) (pre.length + 1) 101 =
      pre.length + 1 + digits.length := by
    have h := findFrom_append_found digits (pre ++ [105]) rest 101 hne
    simpa using h
  have hsl : slice (pre ++ 105 :: (digits ++ 101 :: rest)) (pre.length + 1)
      (pre.length + 1 + digits.length) = digits := by
    have h := slice_append_exact (pre ++ [105]) digits (101 :: rest)
    simpa using h
  have hcmp : pre.length + 1 + digits.length <
      (pre ++ 105 :: (digits ++ 101 :: rest)).length := by
    simp
    omega
  simp only [decodeInt, if_pos (And.intro hlt hGetD), hf, if_pos hcmp, hsl, hd]
  congr 2
  omega

theorem decodeString_seg (pre s rest : List Nat) (hlen : s.length ≤ 2 ^ 63 - 1) :
    decodeString (pre ++ (encStr s ++ rest)) pre.length =
      .ok (.str s, pre.length + (encStr s).length) := by
  have hd58 : ∀ x ∈ natDigits s.length, x ≠ 58 := by
    intro x hx
    have := natDigits_digits s.length x hx
    omega
  have hshape : pre ++ (encStr s ++ rest) =
      pre ++ (natDigits s.length ++ 58 :: (s ++ rest)) := by
    simp [encStr]
  rw [hshape]
  have hf : findFrom (pre ++ (natDigits s.length ++ 58 :: (s ++ rest))) pre.length 58 =
      pre.length + (natDigits s.length).length :=
    findFrom_append_found (natDigits s.length) pre (s ++ rest) 58 hd58
  have hcmp : pre.length + (natDigits s.length).length <
      (pre ++ (natDigits s.length ++ 58 :: (s ++ rest))).length := by
    simp
  have hsl : slice (pre ++ (natDigits s.length ++ 58 :: (s ++ rest))) pre.length
      (pre.length + (natDigits s.length).length) = natDigits s.length := by
    have h := slice_append_exact pre (natDigits s.length) (58 :: (s ++ rest))
    simpa using h
  have hparse : parseIntGo (natDigits s.length) = some (s.length : Int) :=
    parseIntGo_natDigits s.length hlen
  have hnogt : ¬ (((pre.length + (natDigits s.length).length : Nat) : Int) + 1 + (s.length : Int) >
      ((pre ++ (natDigits s.length ++ 58 :: (s ++ rest))).length : Int)) := by
    simp only [List.length_append, List.length_cons]
    push_cast
    omega
  have htn : ((s.length : Int)).toNat = s.length := Int.toNat_natCast s.length
  have hsl2 : slice (pre ++ (natDigits s.length ++ 58 :: (s ++ rest)))
      (pre.length + (natDigits s.length).length + 1)
      (pre.length + (natDigits s.length).length + 1 + s.length) = s := by
    have h := slice_append_exact (pre ++ natDigits s.length ++ [58]) s rest
    simpa [List.append_assoc] using h
  simp only [decodeString, hf, if_pos hcmp, hsl, hparse, if_neg hnogt, htn, hsl2]
  congr 2
  simp [encStr]
  omega

/-! ### Primitive decoder facts: advance, fuel-freeness, append-stability -/

theorem decodeInt_advance {data : List Nat} {start : Nat} {v : BValue} {p : Nat}
    (h : decodeInt data start = .ok (v, p)) : start < p := by
  unfold decodeInt at h
  split at h
  · split at h
    · split at h
      · simp only [Except.ok.injEq, Prod.mk.injEq] at h
        have := findFrom_ge data (start + 1) 101
        omega
      · simp at h
    · simp at h
  · simp at h

theorem decodeString_advance {data : List Nat} {start : Nat} {v : BValue} {p : Nat}
    (h : decodeString data start = .ok (v, p)) : start < p := by
  unfold decodeString at h
  split at h
  · split at h
    · split at h
      · simp at h
      · simp only [Except.ok.injEq, Prod.mk.injEq] at h
        have := findFrom_ge data start 58
        omega
    · simp at h
  · simp at h

theorem decodeInt_ne_oof (data : List Nat) (start : Nat) :
    decodeInt data start ≠ .error .outOfFuel := by
  unfold decodeInt
  split
  · split
    · split <;> simp
    · simp
  · simp

theorem decodeString_ne_oof (data : List Nat) (start : Nat) :
    decodeString data start ≠ .error .outOfFuel := by
  unfold decodeString
  split
  · split
    · split <;> simp
    · simp
  · simp

theorem decodeInt_ext {data ext : List Nat} {start : Nat} {v : BValue} {p : Nat}
    (h : decodeInt data start = .ok (v, p)) :
    decodeInt (data ++ ext) start = .ok (v, p) := by
  unfold decodeInt at h ⊢
  split at h
  case isFalse => simp at h
  case isTrue hc =>
    obtain ⟨hlt, hgd⟩ := hc
    split at h
    case isFalse => simp at h
    case isTrue he =>
      have hf : findFrom (data ++ ext) (start + 1) 101 = findFrom data (start + 1) 101 :=
        findFrom_append_ext data ext (start + 1) 101 he
      have hgd' : (data ++ ext).getD start 0 = 105 := by
        rw [getD_append_left data ext 0 hlt]; exact hgd
      have hlt' : start < (data ++ ext).length := by simp; omega
      have he' : findFrom data (start + 1) 101 < (data ++ ext).length := by
        simp; omega
      have hsl : slice (data ++ ext) (start + 1) (findFrom data (start + 1) 101) =
          slice data (start + 1) (findFrom data (start + 1) 101) :=
        slice_append_of_le data ext (start + 1) _ (by omega)
      rw [if_pos (And.intro hlt' hgd'), hf, if_pos he', hsl]
      split at h
      case h_1 n hn => exact h
      case h_2 hn => simp at h

theorem decodeString_ext {data ext : List Nat} {start : Nat} {v : BValue} {p : Nat}
    (h : decodeString data start = .ok (v, p)) :
    decodeString (data ++ ext) start = .ok (v, p) := by
  unfold decodeString at h ⊢
  split at h
  case isFalse => simp at h
  case isTrue hc =>
    have hf : findFrom (data ++ ext) start 58 = findFrom data start 58 :=
      findFrom_append_ext data ext start 58 hc
    have hc' : findFrom data start 58 < (data ++ ext).length := by simp; omega
    have hsl : slice (data ++ ext) start (findFrom data start 58) =
        slice data start (findFrom data start 58) :=
      slice_append_of_le data ext start _ (by omega)
    rw [hf, if_pos hc', hsl]
    split at h
    case h_2 hn => simp at h
    case h_1 n hn =>
      split at h
      case isTrue => simp at h
      case isFalse hgt =>
        have hgt' : ¬ ((findFrom data start 58 : Int) + 1 + n >
            ((data ++ ext).length : Int)) := by
          simp only [List.length_append] at hgt ⊢
          push_cast at hgt ⊢
          omega
        rw [if_neg hgt']
        have hle : findFrom data start 58 + 1 + n.toNat ≤ data.length := by
          by_cases hn0 : 0 ≤ n
          · have : n.toNat = n := by omega
            omega
          · have : n.toNat = 0 := by omega
            omega
        rw [slice_append_of_le data ext _ _ hle]
        exact h

/-! ### The decoder advances the position on success -/

theorem decode_advance : ∀ fuel : Nat,
    (∀ data start v p, decodeAux fuel data start = .ok (v, p) → start < p) ∧
    (∀ data pos l p, decodeListItems fuel data pos = .ok (l, p) → pos < p) ∧
    (∀ data pos acc d p, decodeDictItems fuel data pos acc = .ok (d, p) → pos < p) := by
  intro fuel
  induction fuel with
  | zero =>
    refine ⟨?_, ?_, ?_⟩
    · intro data start v p h; simp [decodeAux] at h
    · intro data pos l p h; simp [decodeListItems] at h
    · intro data pos acc d p h; simp [decodeDictItems] at h
  | succ f ih =>
    obtain ⟨ih1, ih2, ih3⟩ := ih
    refine ⟨?_, ?_, ?_⟩
    · intro data start v p h
      simp only [decodeAux] at h
      split at h
      · split at h
        · exact decodeInt_advance h
        · split at h
          · split at h
            · rename_i l' p' hl
              simp only [Except.ok.injEq, Prod.mk.injEq] at h
              obtain ⟨h1, h2⟩ := h
              have := ih2 data (start + 1) l' p' hl
              omega
            · simp at h
          · split at h
            · split at h
              · rename_i d' p' hd
                simp only [Except.ok.injEq, Prod.mk.injEq] at h
                obtain ⟨h1, h2⟩ := h
                have := ih3 data (start + 1) [] d' p' hd
                omega
              · simp at h
            · split at h
              · exact decodeString_advance h
              · simp at h
      · simp at h
    · intro data pos l p h
      simp only [decodeListItems] at h
      split at h
      · split at h
        · simp only [Except.ok.injEq, Prod.mk.injEq] at h
          obtain ⟨h1, h2⟩ := h
          omega
        · split at h
          · rename_i v' p' hv
            split at h
            · rename_i vs q hq
              simp only [Except.ok.injEq, Prod.mk.injEq] at h
              obtain ⟨h1, h2⟩ := h
              have a1 := ih1 data pos v' p' hv
              have a2 := ih2 data p' vs q hq
              omega
            · simp at h
          · simp at h
      · simp at h
    · intro data pos acc d p h
      simp only [decodeDictItems] at h
      split at h
      · split at h
        · simp only [Except.ok.injEq, Prod.mk.injEq] at h
          obtain ⟨h1, h2⟩ := h
          omega
        · split at h
          · rename_i k p1 hk
            split at h
            · rename_i s
              split at h
              · rename_i v' p2 hv
                have a1 := ih1 data pos (BValue.str s) p1 hk
                have a2 := ih1 data p1 v' p2 hv
                have a3 := ih3 data p2 (insertKV acc s v') d p h
                omega
              · simp at h
            · simp at h
          · simp at h
      · simp at h

/-! ### Fuel adequacy: `Decode` never runs out of fuel -/

theorem decode_adequate : ∀ fuel : Nat,
    (∀ data start, 2 * (data.length - start) + 1 ≤ fuel →
      decodeAux fuel data start ≠ .error .outOfFuel) ∧
    (∀ data pos, 2 * (data.length - pos) + 2 ≤ fuel →
      decodeListItems fuel data pos ≠ .error .outOfFuel) ∧
    (∀ data pos acc, 2 * (data.length - pos) + 2 ≤ fuel →
      decodeDictItems fuel data pos acc ≠ .error .outOfFuel) := by
  intro fuel
  induction fuel with
  | zero =>
    refine ⟨?_, ?_, ?_⟩ <;> (intro data pos h; omega)
  | succ f ih =>
    obtain ⟨ih1, ih2, ih3⟩ := ih
    refine ⟨?_, ?_, ?_⟩
    · intro data start hb
      simp only [decodeAux]
      split
      · rename_i hs
        split
        · exact decodeInt_ne_oof data start
        · split
          · split
            · simp
            · rename_i e he
              intro hc
              simp only [Except.error.injEq] at hc
              subst hc
              exact ih2 data (start + 1) (by omega) he
          · split
            · split
              · simp
              · rename_i e he
                intro hc
                simp only [Except.error.injEq] at hc
                subst hc
                exact ih3 data (start + 1) [] (by omega) he
            · split
              · exact decodeString_ne_oof data start
              · simp
      · simp
    · intro data pos hb
      simp only [decodeListItems]
      split
      · rename_i hs
        split
        · simp
        · split
          · rename_i v' p' hv
            split
            · simp
            · rename_i e he
              intro hc
              simp only [Except.error.injEq] at hc
              subst hc
              have adv := (decode_advance f).1 data pos v' p' hv
              exact ih2 data p' (by omega) he
          · rename_i e he
            intro hc
            simp only [Except.error.injEq] at hc
            subst hc
            exact ih1 data pos (by omega) he
      · simp
    · intro data pos acc hb
      simp only [decodeDictItems]
      split
      · rename_i hs
        split
        · simp
        · split
          · rename_i k p1 hk
            split
            · rename_i s
              split
              · rename_i v' p2 hv
                have a1 := (decode_advance f).1 data pos (BValue.str s) p1 hk
                have a2 := (decode_advance f).1 data p1 v' p2 hv
                exact ih3 data p2 (insertKV acc s v') (by omega)
              · rename_i e he
                intro hc
                simp only [Except.error.injEq] at hc
                subst hc
                have a1 := (decode_advance f).1 data pos (BValue.str s) p1 hk
                exact ih1 data p1 (by omega) he
            · simp
          · rename_i e he
            intro hc
            simp only [Except.error.injEq] at hc
            subst hc
            exact ih1 data pos (by omega) he
      · simp

/-- The fuel supplied by `Decode` is always sufficient. -/
theorem decodeAux_adequate (data : List Nat) (start fuel : Nat)
    (h : 2 * (data.length - start) + 1 ≤ fuel) :
    decodeAux fuel data start ≠ .error .outOfFuel :=
  (decode_adequate fuel).1 data start h

/-! ### Fuel monotonicity of successful parses -/

theorem decode_mono : ∀ fuel : Nat,
    (∀ data start r, decodeAux fuel data start = .ok r →
      decodeAux (fuel + 1) data start = .ok r) ∧
    (∀ data pos r, decodeListItems fuel data pos = .ok r →
      decodeListItems (fuel + 1) data pos = .ok r) ∧
    (∀ data pos acc r, decodeDictItems fuel data pos acc = .ok r →
      decodeDictItems (fuel + 1) data pos acc = .ok r) := by
  intro fuel
  induction fuel with
  | zero =>
    refine ⟨?_, ?_, ?_⟩
    · intro data start r h; simp [decodeAux] at h
    · intro data pos r h; simp [decodeListItems] at h
    · intro data pos acc r h; simp [decodeDictItems] at h
  | succ f ih =>
    obtain ⟨ih1, ih2, ih3⟩ := ih
    refine ⟨?_, ?_, ?_⟩
    · intro data start r h
      rw [decodeAux_succ] at h ⊢
      split at h
      · rename_i hs
        rw [if_pos hs]
        split at h
        · rename_i h105
          rw [if_pos h105]
          exact h
        · rename_i h105
          rw [if_neg h105]
          split at h
          · rename_i h108
            rw [if_pos h108]
            split at h
            · rename_i l' p' hl
              simp only [ih2 data (start + 1) (l', p') hl]
              exact h
            · simp at h
          · rename_i h108
            rw [if_neg h108]
            split at h
            · rename_i h100
              rw [if_pos h100]
              split at h
              · rename_i d' p' hd
                simp only [ih3 data (start + 1) [] (d', p') hd]
                exact h
              · simp at h
            · rename_i h100
              rw [if_neg h100]
              split at h
              · rename_i hdig
                rw [if_pos hdig]
                exact h
              · simp at h
      · simp at h
    · intro data pos r h
      rw [decodeListItems_succ] at h ⊢
      split at h
      · rename_i hs
        rw [if_pos hs]
        split at h
        · rename_i he
          rw [if_pos he]
          exact h
        · rename_i he
          rw [if_neg he]
          split at h
          · rename_i v' p' hv
            split at h
            · rename_i vs q hq
              simp only [ih1 data pos (v', p') hv, ih2 data p' (vs, q) hq]
              exact h
            · simp at h
          · simp at h
      · simp at h
    · intro data pos acc r h
      rw [decodeDictItems_succ] at h ⊢
      split at h
      · rename_i hs
        rw [if_pos hs]
        split at h
        · rename_i he
          rw [if_pos he]
          exact h
        · rename_i he
          rw [if_neg he]
          split at h
          · rename_i k p1 hk
            simp only [ih1 data pos (k, p1) hk]
            split at h
            · rename_i s
              split at h
              · rename_i v' p2 hv
                simp only [ih1 data p1 (v', p2) hv]
                exact ih3 data p2 (insertKV acc s v') r h
              · simp at h
            · simp at h
          · simp at h
      · simp at h

theorem decodeAux_mono {f g : Nat} (hfg : f ≤ g) {data : List Nat} {start : Nat}
    {r : BValue × Nat} (hok : decodeAux f data start = .ok r) :
    decodeAux g data start = .ok r := by
  induction g with
  | zero =>
    have hf0 : f = 0 := by omega
    subst hf0
    simp [decodeAux] at hok
  | succ g ihg =>
    by_cases hf : f = g + 1
    · subst hf; exact hok
    · exact (decode_mono g).1 data start r (ihg (by omega))

/-! ### A successful parse is unaffected by appending trailing bytes -/

theorem decode_ext : ∀ fuel : Nat,
    (∀ (data ext : List Nat) start r, decodeAux fuel data start = .ok r →
      decodeAux fuel (data ++ ext) start = .ok r) ∧
    (∀ (data ext : List Nat) pos r, decodeListItems fuel data pos = .ok r →
      decodeListItems fuel (data ++ ext) pos = .ok r) ∧
    (∀ (data ext : List Nat) pos acc r, decodeDictItems fuel data pos acc = .ok r →
      decodeDictItems fuel (data ++ ext) pos acc = .ok r) := by
  intro fuel
  induction fuel with
  | zero =>
    refine ⟨?_, ?_, ?_⟩
    · intro data ext start r h; simp [decodeAux] at h
    · intro data ext pos r h; simp [decodeListItems] at h
    · intro data ext pos acc r h; simp [decodeDictItems] at h
  | succ f ih =>
    obtain ⟨ih1, ih2, ih3⟩ := ih
    refine ⟨?_, ?_, ?_⟩
    · intro data ext start r h
      rw [decodeAux_succ] at h ⊢
      split at h
      · rename_i hs
        rw [if_pos (show start < (data ++ ext).length by simp; omega),
          getD_append_left data ext 0 hs]
        split at h
        · rename_i h105
          rw [if_pos h105]
          obtain ⟨v, p⟩ := r
          exact decodeInt_ext h
        · rename_i h105
          rw [if_neg h105]
          split at h
          · rename_i h108
            rw [if_pos h108]
            split at h
            · rename_i l' p' hl
              simp only [ih2 data ext (start + 1) (l', p') hl]
              exact h
            · simp at h
          · rename_i h108
            rw [if_neg h108]
            split at h
            · rename_i h100
              rw [if_pos h100]
              split at h
              · rename_i d' p' hd
                simp only [ih3 data ext (start + 1) [] (d', p') hd]
                exact h
              · simp at h
            · rename_i h100
              rw [if_neg h100]
              split at h
              · rename_i hdig
                rw [if_pos hdig]
                obtain ⟨v, p⟩ := r
                exact decodeString_ext h
              · simp at h
      · simp at h
    · intro data ext pos r h
      rw [decodeListItems_succ] at h ⊢
      split at h
      · rename_i hs
        rw [if_pos (show pos < (data ++ ext).length by simp; omega),
          getD_append_left data ext 0 hs]
        split at h
        · rename_i he
          rw [if_pos he]
          exact h
        · rename_i he
          rw [if_neg he]
          split at h
          · rename_i v' p' hv
            simp only [ih1 data ext pos (v', p') hv]
            split at h
            · rename_i vs q hq
              simp only [ih2 data ext p' (vs, q) hq]
              exact h
            · simp at h
          · simp at h
      · simp at h
    · intro data ext pos acc r h
      rw [decodeDictItems_succ] at h ⊢
      split at h
      · rename_i hs
        rw [if_pos (show pos < (data ++ ext).length by simp; omega),
          getD_append_left data ext 0 hs]
        split at h
        · rename_i he
          rw [if_pos he]
          exact h
        · rename_i he
          rw [if_neg he]
          split at h
          · rename_i k p1 hk
            simp only [ih1 data ext pos (k, p1) hk]
            split at h
            · rename_i s
              split at h
              · rename_i v' p2 hv
                simp only [ih1 data ext p1 (v', p2) hv]
                exact ih3 data ext p2 (insertKV acc s v') r h
              · simp at h
            · simp at h
          · simp at h
      · simp at h

/-! ### Small unfolding equations for the encoder -/

theorem encode_str (s : List Nat) : encode (.str s) = encStr s := rfl

theorem encode_int (n : Int) : encode (.int n) = 105 :: (intDigits n ++ [101]) := rfl

theorem encode_list (l : List BValue) :
    encode (.list l) = 108 :: (encodeItems l ++ [101]) := rfl

theorem encode_dict (d : List (List Nat × BValue)) :
    encode (.dict d) = 100 :: (joinChunks (sortChunks (pairChunks d)) ++ [101]) := rfl

theorem encodeItems_nil : encodeItems [] = [] := rfl

theorem encodeItems_cons (v : BValue) (vs : List BValue) :
    encodeItems (v :: vs) = encode v ++ encodeItems vs := rfl

theorem encodePairs_nil : encodePairs [] = [] := rfl

theorem encodePairs_cons (k : List Nat) (v : BValue) (ps : List (List Nat × BValue)) :
    encodePairs ((k, v) :: ps) = (encStr k ++ encode v) ++ encodePairs ps := rfl

theorem encStr_head (s : List Nat) :
    ∃ c t, encStr s = c :: t ∧ 48 ≤ c ∧ c ≤ 57 := by
  rcases hne : natDigits s.length with _ | ⟨c, t'⟩
  · exact absurd hne (natDigits_ne_nil _)
  · have hc := natDigits_digits s.length c (by rw [hne]; exact List.mem_cons_self c t')
    exact ⟨c, t' ++ 58 :: s, by simp [encStr, hne], hc.1, hc.2⟩

theorem encode_head (v : BValue) : ∃ c t, encode v = c :: t ∧ c ≠ 101 := by
  cases v with
  | str s =>
    obtain ⟨c, t, hct, h1, h2⟩ := encStr_head s
    exact ⟨c, t, by rw [encode_str, hct], by omega⟩
  | int n => exact ⟨105, _, encode_int n, by omega⟩
  | list l => exact ⟨108, _, encode_list l, by omega⟩
  | dict d => exact ⟨100, _, encode_dict d, by omega⟩

theorem intDigits_ne101 (n : Int) : ∀ x ∈ intDigits n, x ≠ 101 := by
  intro x hx
  unfold intDigits at hx
  by_cases hn : n < 0
  · simp only [hn, if_true, List.mem_cons] at hx
    rcases hx with rfl | hx
    · omega
    · have := natDigits_digits n.natAbs x hx
      omega
  · simp only [hn, if_false] at hx
    have := natDigits_digits n.toNat x hx
    omega

theorem validStr_spec {s : List Nat} (h : validStr s = true) :
    s.length ≤ 2 ^ 63 - 1 ∧ ∀ b ∈ s, b < 256 := by
  simp only [validStr, Bool.and_eq_true, decide_eq_true_eq, List.all_eq_true] at h
  exact h

/-- A position-congruence helper for decoder results. -/
theorem ok_pos_congr {α : Type} {v : α} {a b : Nat} (h : a = b) :
    (Except.ok (v, a) : Except Err (α × Nat)) = .ok (v, b) := by rw [h]

/-! ### Validity extraction -/

theorem validB_str {s : List Nat} (h : validB (.str s) = true) : validStr s = true := h

theorem validB_int {n : Int} (h : validB (.int n) = true) :
    -(2 ^ 63) ≤ n ∧ n ≤ 2 ^ 63 - 1 := by
  simp only [validB, Bool.and_eq_true, decide_eq_true_eq] at h
  exact h

theorem validB_list {l : List BValue} (h : validB (.list l) = true) :
    validItems l = true := h

theorem validB_dict {d : List (List Nat × BValue)} (h : validB (.dict d) = true) :
    validPairs d = true := h

theorem validItems_cons {v : BValue} {vs : List BValue}
    (h : validItems (v :: vs) = true) : validB v = true ∧ validItems vs = true := by
  simp only [validItems, Bool.and_eq_true] at h
  exact h

theorem validPairs_cons {k : List Nat} {v : BValue} {ps : List (List Nat × BValue)}
    (h : validPairs ((k, v) :: ps) = true) :
    validStr k = true ∧ validB v = true ∧ validPairs ps = true := by
  simp only [validPairs, Bool.and_eq_true] at h
  exact ⟨h.1.1.1, h.1.1.2, h.2⟩

theorem validPairs_all {d : List (List Nat × BValue)} (h : validPairs d = true) :
    ∀ p ∈ d, validStr p.1 = true ∧ validB p.2 = true := by
  induction d with
  | nil => intro p hp; simp at hp
  | cons q ps ih =>
    obtain ⟨k, v⟩ := q
    obtain ⟨h1, h2, h3⟩ := validPairs_cons h
    intro p hp
    rcases List.mem_cons.mp hp with rfl | hp
    · exact ⟨h1, h2⟩
    · exact ih h3 p hp

theorem validPairs_chain {d : List (List Nat × BValue)} (h : validPairs d = true) :
    List.Chain' (fun p q => bytesLtB p.1 q.1 = true) d := by
  induction d with
  | nil => exact List.chain'_nil
  | cons q ps ih =>
    obtain ⟨k, v⟩ := q
    rw [List.chain'_cons']
    constructor
    · intro y hy
      cases ps with
      | nil => simp at hy
      | cons q' ps' =>
        simp only [List.head?_cons, Option.mem_def, Option.some.injEq] at hy
        subst hy
        simp only [validPairs, Bool.and_eq_true] at h
        exact h.1.2
    · apply ih
      exact (validPairs_cons h).2.2

/-! ### Order on bytes: `≤` facts -/

theorem bytesLeB_trans {a b c : List Nat} (h1 : bytesLeB a b = true)
    (h2 : bytesLeB b c = true) : bytesLeB a c = true := by
  rcases bytesLeB_iff.mp h1 with h1' | rfl
  · rcases bytesLeB_iff.mp h2 with h2' | rfl
    · exact bytesLeB_iff.mpr (Or.inl (bytesLtB_trans h1' h2'))
    · exact bytesLeB_iff.mpr (Or.inl h1')
  · exact h2

theorem bytesLeB_total (a b : List Nat) :
    bytesLeB a b = true ∨ bytesLeB b a = true := by
  rcases bytesLtB_total a b with h | h | h
  · exact Or.inl (bytesLeB_iff.mpr (Or.inl h))
  · exact Or.inl (bytesLeB_iff.mpr (Or.inr h))
  · exact Or.inr (bytesLeB_iff.mpr (Or.inl h))

theorem bytesLtB_not_leB {a b : List Nat} (h : ¬ bytesLeB a b = true) :
    bytesLtB b a = true := by
  unfold bytesLeB at h
  rcases hb : bytesLtB b a with _ | _
  · rw [hb] at h; simp at h
  · rfl

/-! ### The chunk sort: permutation, sortedness, identity on sorted input -/

theorem insertChunk_perm (p : List Nat × List Nat) (l : List (List Nat × List Nat)) :
    List.Perm (insertChunk p l) (p :: l) := by
  induction l with
  | nil => exact List.Perm.refl _
  | cons q qs ih =>
    simp only [insertChunk]
    by_cases h : bytesLeB p.1 q.1 = true
    · simp [h]
    · simp only [h, if_false]
      exact List.Perm.trans (List.Perm.cons q ih) (List.Perm.swap p q qs)

theorem sortChunks_perm (l : List (List Nat × List Nat)) :
    List.Perm (sortChunks l) l := by
  induction l with
  | nil => exact List.Perm.refl _
  | cons p ps ih =>
    exact List.Perm.trans (insertChunk_perm p (sortChunks ps)) (List.Perm.cons p ih)

theorem insertChunk_pairwise {p : List Nat × List Nat}
    {l : List (List Nat × List Nat)}
    (h : List.Pairwise (fun x y => bytesLeB x.1 y.1 = true) l) :
    List.Pairwise (fun x y => bytesLeB x.1 y.1 = true) (insertChunk p l) := by
  induction l with
  | nil => simp [insertChunk]
  | cons q qs ih =>
    simp only [insertChunk]
    by_cases hle : bytesLeB p.1 q.1 = true
    · rw [if_pos hle]
      refine List.Pairwise.cons ?_ h
      intro y hy
      rcases List.mem_cons.mp hy with rfl | hy
      · exact hle
      · exact bytesLeB_trans hle ((List.pairwise_cons.mp h).1 y hy)
    · rw [if_neg hle]
      have hqp : bytesLeB q.1 p.1 = true :=
        bytesLeB_iff.mpr (Or.inl (bytesLtB_not_leB hle))
      obtain ⟨hq, hqs⟩ := List.pairwise_cons.mp h
      refine List.Pairwise.cons ?_ (ih hqs)
      intro y hy
      have hy' := (insertChunk_perm p qs).mem_iff.mp hy
      rcases List.mem_cons.mp hy' with rfl | hy'
      · exact hqp
      · exact hq y hy'

theorem sortChunks_pairwise (l : List (List Nat × List Nat)) :
    List.Pairwise (fun x y => bytesLeB x.1 y.1 = true) (sortChunks l) := by
  induction l with
  | nil => simp [sortChunks]
  | cons p ps ih => exact insertChunk_pairwise ih

/-- Sorting is the identity on an already strictly-sorted chunk list
(the canonical form of a Go map). -/
theorem sortChunks_id {l : List (List Nat × List Nat)}
    (h : List.Chain' (fun x y => bytesLtB x.1 y.1 = true) l) :
    sortChunks l = l := by
  induction l with
  | nil => rfl
  | cons p ps ih =>
    have htl : List.Chain' (fun x y => bytesLtB x.1 y.1 = true) ps :=
      (List.chain'_cons'.mp h).2
    simp only [sortChunks, ih htl]
    cases ps with
    | nil => rfl
    | cons q qs =>
      have hpq : bytesLtB p.1 q.1 = true :=
        (List.chain'_cons'.mp h).1 q (by simp)
      simp only [insertChunk, if_pos (bytesLeB_iff.mpr (Or.inl hpq))]

/-! ### Folding Go map inserts over already-sorted pairs -/

theorem insertKV_append {acc : List (List Nat × BValue)} {k : List Nat} {v : BValue}
    (h : ∀ q ∈ acc, bytesLtB q.1 k = true) :
    insertKV acc k v = acc ++ [(k, v)] := by
  induction acc with
  | nil => rfl
  | cons q rest ih =>
    obtain ⟨k', v'⟩ := q
    have hlt : bytesLtB k' k = true := h (k', v') (by simp)
    have h1 : bytesLtB k k' = false := bytesLtB_asymm hlt
    have h2 : k ≠ k' := by
      intro he
      subst he
      rw [bytesLtB_irrefl] at hlt
      simp at hlt
    simp only [insertKV, h1, Bool.false_eq_true, if_false, if_neg h2]
    rw [ih (fun q hq => h q (List.mem_cons_of_mem _ hq))]
    simp

theorem foldl_insertKV_sorted :
    ∀ (ps acc : List (List Nat × BValue)),
    List.Pairwise (fun p q => bytesLtB p.1 q.1 = true) (acc ++ ps) →
    ps.foldl (fun a p => insertKV a p.1 p.2) acc = acc ++ ps := by
  intro ps
  induction ps with
  | nil => intro acc _; simp
  | cons p ps' ih =>
    intro acc hpw
    obtain ⟨k, v⟩ := p
    have hcross : ∀ q ∈ acc, bytesLtB q.1 k = true := by
      intro q hq
      have := (List.pairwise_append.mp hpw).2.2 q hq (k, v) (by simp)
      exact this
    have hinst : insertKV acc k v = acc ++ [(k, v)] := insertKV_append hcross
    simp only [List.foldl_cons, hinst]
    have hre : (acc ++ [(k, v)]) ++ ps' = acc ++ ((k, v) :: ps') := by simp
    have hpw' : List.Pairwise (fun p q => bytesLtB p.1 q.1 = true)
        ((acc ++ [(k, v)]) ++ ps') := by
      rw [hre]; exact hpw
    rw [ih (acc ++ [(k, v)]) hpw']
    simp

/-- The canonical sorted form decoded back: folding the Go map inserts
over strictly ascending pairs starting from the empty map returns
exactly those pairs. -/
theorem foldl_insertKV_id {d : List (List Nat × BValue)}
    (h : List.Pairwise (fun p q => bytesLtB p.1 q.1 = true) d) :
    d.foldl (fun a p => insertKV a p.1 p.2) [] = d := by
  have := foldl_insertKV_sorted d [] (by simpa using h)
  simpa using this

theorem validPairs_pairwise {d : List (List Nat × BValue)}
    (h : validPairs d = true) :
    List.Pairwise (fun p q => bytesLtB p.1 q.1 = true) d := by
  letI : IsTrans (List Nat × BValue) (fun p q => bytesLtB p.1 q.1 = true) :=
    ⟨fun _ _ _ hab hbc => bytesLtB_trans hab hbc⟩
  exact List.chain'_iff_pairwise.mp (validPairs_chain h)

theorem pairChunks_cons (k : List Nat) (v : BValue) (ps : List (List Nat × BValue)) :
    pairChunks ((k, v) :: ps) = (k, encStr k ++ encode v) :: pairChunks ps := rfl

theorem pairChunks_chain {d : List (List Nat × BValue)}
    (h : List.Chain' (fun p q => bytesLtB p.1 q.1 = true) d) :
    List.Chain' (fun x y => bytesLtB x.1 y.1 = true) (pairChunks d) := by
  induction d with
  | nil => exact List.chain'_nil
  | cons p ps ih =>
    obtain ⟨k, v⟩ := p
    rw [pairChunks_cons, List.chain'_cons']
    constructor
    · intro y hy
      cases ps with
      | nil => simp [pairChunks] at hy
      | cons q ps' =>
        obtain ⟨k', v'⟩ := q
        rw [pairChunks_cons] at hy
        simp only [List.head?_cons, Option.mem_def, Option.some.injEq] at hy
        subst hy
        exact (List.chain'_cons'.mp h).1 (k', v') (by simp)
    · exact ih (List.chain'_cons'.mp h).2

/-! ### The decoder inverts the encoder

For every valid value, running the fuel-indexed decoder on an encoding
embedded between arbitrary context bytes either runs out of fuel or
returns exactly the encoded value and the position one past it. -/

mutual

theorem decodeAux_on_encode : ∀ (v : BValue), validB v = true →
    ∀ (fuel : Nat) (pre rest : List Nat),
    decodeAux fuel (pre ++ (encode v ++ rest)) pre.length = .error .outOfFuel ∨
    decodeAux fuel (pre ++ (encode v ++ rest)) pre.length =
      .ok (v, pre.length + (encode v).length)
  | .str s => by
    intro hv fuel pre rest
    cases fuel with
    | zero => exact Or.inl rfl
    | succ f =>
      right
      obtain ⟨c, t, hct, hc1, hc2⟩ := encStr_head s
      have hform : pre ++ (encode (.str s) ++ rest) = pre ++ c :: (t ++ rest) := by
        rw [encode_str, hct]; simp
      have hgd : (pre ++ (encode (.str s) ++ rest)).getD pre.length 0 = c := by
        rw [hform]; exact getD_append_cons pre c (t ++ rest) 0
      have hlt : pre.length < (pre ++ (encode (.str s) ++ rest)).length := by
        rw [hform]; simp
      rw [decodeAux_succ, if_pos hlt, hgd,
        if_neg (by omega : ¬ (c = 105)), if_neg (by omega : ¬ (c = 108)),
        if_neg (by omega : ¬ (c = 100)),
        if_pos (by simp [isDigit]; omega : isDigit c = true)]
      rw [encode_str]
      exact decodeString_seg pre s rest (validStr_spec (validB_str hv)).1
  | .int n => by
    intro hv fuel pre rest
    cases fuel with
    | zero => exact Or.inl rfl
    | succ f =>
      right
      obtain ⟨h1, h2⟩ := validB_int hv
      have hform : pre ++ (encode (.int n) ++ rest) =
          pre ++ 105 :: (intDigits n ++ 101 :: rest) := by
        rw [encode_int]; simp
      rw [decodeAux_succ, hform,
        if_pos (show pre.length < (pre ++ 105 :: (intDigits n ++ 101 :: rest)).length by simp),
        getD_append_cons, if_pos rfl,
        decodeInt_seg pre (intDigits n) rest n (parseIntGo_intDigits n h1 h2)
          (intDigits_ne101 n)]
      exact ok_pos_congr (by rw [encode_int]; simp; omega)
  | .list l => by
    intro hv fuel pre rest
    cases fuel with
    | zero => exact Or.inl rfl
    | succ f =>
      have hform : pre ++ (encode (.list l) ++ rest) =
          pre ++ 108 :: (encodeItems l ++ 101 :: rest) := by
        rw [encode_list]; simp
      have hsub := decodeListItems_on_encode l (validB_list hv) f (pre ++ [108]) rest
      have hd2 : (pre ++ [108]) ++ (encodeItems l ++ 101 :: rest) =
          pre ++ 108 :: (encodeItems l ++ 101 :: rest) := by simp
      have hp2 : (pre ++ [108]).length = pre.length + 1 := by simp
      rw [hd2, hp2] at hsub
      rw [decodeAux_succ, hform,
        if_pos (show pre.length < (pre ++ 108 :: (encodeItems l ++ 101 :: rest)).length by simp),
        getD_append_cons,
        if_neg (by omega : ¬ ((108 : Nat) = 105)), if_pos rfl]
      rcases hsub with hoof | hok
      · left
        rw [hoof]
      · right
        rw [hok]
        exact ok_pos_congr (by rw [encode_list]; simp; omega)
  | .dict d => by
    intro hv fuel pre rest
    cases fuel with
    | zero => exact Or.inl rfl
    | succ f =>
      have hvp := validB_dict hv
      have hid : sortChunks (pairChunks d) = pairChunks d :=
        sortChunks_id (pairChunks_chain (validPairs_chain hvp))
      have hform : pre ++ (encode (.dict d) ++ rest) =
          pre ++ 100 :: (encodePairs d ++ 101 :: rest) := by
        rw [encode_dict, hid]
        simp [encodePairs]
      have hsub := decodeDictItems_on_encode d (validPairs_all hvp) f (pre ++ [100]) rest []
      have hd2 : (pre ++ [100]) ++ (encodePairs d ++ 101 :: rest) =
          pre ++ 100 :: (encodePairs d ++ 101 :: rest) := by simp
      have hp2 : (pre ++ [100]).length = pre.length + 1 := by simp
      rw [hd2, hp2] at hsub
      rw [decodeAux_succ, hform,
        if_pos (show pre.length < (pre ++ 100 :: (encodePairs d ++ 101 :: rest)).length by simp),
        getD_append_cons,
        if_neg (by omega : ¬ ((100 : Nat) = 105)),
        if_neg (by omega : ¬ ((100 : Nat) = 108)), if_pos rfl]
      rcases hsub with hoof | hok
      · left
        rw [hoof]
      · right
        rw [hok, foldl_insertKV_id (validPairs_pairwise hvp)]
        exact ok_pos_congr (by rw [encode_dict, hid]; simp [encodePairs]; omega)
termination_by v => sizeOf v

theorem decodeListItems_on_encode : ∀ (l : List BValue), validItems l = true →
    ∀ (fuel : Nat) (pre rest : List Nat),
    decodeListItems fuel (pre ++ (encodeItems l ++ 101 :: rest)) pre.length =
      .error .outOfFuel ∨
    decodeListItems fuel (pre ++ (encodeItems l ++ 101 :: rest)) pre.length =
      .ok (l, pre.length + (encodeItems l).length + 1)
  | [] => by
    intro hv fuel pre rest
    cases fuel with
    | zero => exact Or.inl rfl
    | succ f =>
      right
      have hform : pre ++ (encodeItems [] ++ 101 :: rest) = pre ++ 101 :: rest := by
        rw [encodeItems_nil]; simp
      rw [decodeListItems_succ, hform,
        if_pos (show pre.length < (pre ++ 101 :: rest).length by simp),
        getD_append_cons, if_pos rfl]
      exact ok_pos_congr (by rw [encodeItems_nil]; simp)
  | v :: vs => by
    intro hv fuel pre rest
    obtain ⟨hv1, hv2⟩ := validItems_cons hv
    cases fuel with
    | zero => exact Or.inl rfl
    | succ f =>
      obtain ⟨c, t, hct, hc101⟩ := encode_head v
      have hform : pre ++ (encodeItems (v :: vs) ++ 101 :: rest) =
          pre ++ (encode v ++ (encodeItems vs ++ 101 :: rest)) := by
        rw [encodeItems_cons]; simp
      have hgd : (pre ++ (encode v ++ (encodeItems vs ++ 101 :: rest))).getD
          pre.length 0 = c := by
        rw [hct, show pre ++ ((c :: t) ++ (encodeItems vs ++ 101 :: rest)) =
          pre ++ c :: (t ++ (encodeItems vs ++ 101 :: rest)) by simp]
        exact getD_append_cons _ _ _ _
      have hlt : pre.length <
          (pre ++ (encode v ++ (encodeItems vs ++ 101 :: rest))).length := by
        simp
      have hsub1 := decodeAux_on_encode v hv1 f pre (encodeItems vs ++ 101 :: rest)
      rw [decodeListItems_succ, hform, if_pos hlt, hgd, if_neg hc101]
      rcases hsub1 with hoof | hok1
      · left
        rw [hoof]
      · have hsub2 := decodeListItems_on_encode vs hv2 f (pre ++ encode v) rest
        have hd2 : (pre ++ encode v) ++ (encodeItems vs ++ 101 :: rest) =
            pre ++ (encode v ++ (encodeItems vs ++ 101 :: rest)) := by simp
        have hp2 : (pre ++ encode v).length = pre.length + (encode v).length := by simp
        rw [hd2, hp2] at hsub2
        rcases hsub2 with hoof2 | hok2
        · left
          simp only [hok1, hoof2]
        · right
          simp only [hok1, hok2]
          exact ok_pos_congr (by rw [encodeItems_cons]; simp; omega)
termination_by l => sizeOf l

theorem decodeDictItems_on_encode : ∀ (ps : List (List Nat × BValue)),
    (∀ p ∈ ps, validStr p.1 = true ∧ validB p.2 = true) →
    ∀ (fuel : Nat) (pre rest : List Nat) (acc : List (List Nat × BValue)),
    decodeDictItems fuel (pre ++ (encodePairs ps ++ 101 :: rest)) pre.length acc =
      .error .outOfFuel ∨
    decodeDictItems fuel (pre ++ (encodePairs ps ++ 101 :: rest)) pre.length acc =
      .ok (ps.foldl (fun a p => insertKV a p.1 p.2) acc,
        pre.length + (encodePairs ps).length + 1)
  | [] => by
    intro hv fuel pre rest acc
    cases fuel with
    | zero => exact Or.inl rfl
    | succ f =>
      right
      have hform : pre ++ (encodePairs [] ++ 101 :: rest) = pre ++ 101 :: rest := by
        rw [encodePairs_nil]; simp
      rw [decodeDictItems_succ, hform,
        if_pos (show pre.length < (pre ++ 101 :: rest).length by simp),
        getD_append_cons, if_pos rfl]
      exact ok_pos_congr (by rw [encodePairs_nil]; simp)
  | (k, v) :: ps' => by
    intro hv fuel pre rest acc
    have hvk : validStr k = true := (hv (k, v) (by simp)).1
    have hvv : validB v = true := (hv (k, v) (by simp)).2
    have hv' : ∀ p ∈ ps', validStr p.1 = true ∧ validB p.2 = true :=
      fun p hp => hv p (List.mem_cons_of_mem _ hp)
    cases fuel with
    | zero => exact Or.inl rfl
    | succ f =>
      obtain ⟨c, t, hct, hc1, hc2⟩ := encStr_head k
      have hform : pre ++ (encodePairs ((k, v) :: ps') ++ 101 :: rest) =
          pre ++ (encStr k ++ (encode v ++ (encodePairs ps' ++ 101 :: rest))) := by
        rw [encodePairs_cons]; simp
      have hgd : (pre ++ (encStr k ++ (encode v ++ (encodePairs ps' ++ 101 :: rest)))).getD
          pre.length 0 = c := by
        rw [hct, show pre ++ ((c :: t) ++ (encode v ++ (encodePairs ps' ++ 101 :: rest))) =
          pre ++ c :: (t ++ (encode v ++ (encodePairs ps' ++ 101 :: rest))) by simp]
        exact getD_append_cons _ _ _ _
      have hlt : pre.length <
          (pre ++ (encStr k ++ (encode v ++ (encodePairs ps' ++ 101 :: rest)))).length := by
        simp
      have hsub1 := decodeAux_on_encode (.str k) hvk f pre
        (encode v ++ (encodePairs ps' ++ 101 :: rest))
      rw [encode_str] at hsub1
      rw [decodeDictItems_succ, hform, if_pos hlt, hgd,
        if_neg (by omega : ¬ (c = 101))]
      rcases hsub1 with hoof | hok1
      · left
        rw [hoof]
      · have hsub2 := decodeAux_on_encode v hvv f (pre ++ encStr k)
          (encodePairs ps' ++ 101 :: rest)
        have hd2 : (pre ++ encStr k) ++ (encode v ++ (encodePairs ps' ++ 101 :: rest)) =
            pre ++ (encStr k ++ (encode v ++ (encodePairs ps' ++ 101 :: rest))) := by simp
        have hp2 : (pre ++ encStr k).length = pre.length + (encStr k).length := by simp
        rw [hd2, hp2] at hsub2
        rcases hsub2 with hoof2 | hok2
        · left
          simp only [hok1, hoof2]
        · have hsub3 := decodeDictItems_on_encode ps' hv' f
            (pre ++ encStr k ++ encode v) rest (insertKV acc k v)
          have hd3 : (pre ++ encStr k ++ encode v) ++ (encodePairs ps' ++ 101 :: rest) =
              pre ++ (encStr k ++ (encode v ++ (encodePairs ps' ++ 101 :: rest))) := by simp
          have hp3 : (pre ++ encStr k ++ encode v).length =
              pre.length + (encStr k).length + (encode v).length := by
            rw [List.length_append, List.length_append]
          rw [hd3, hp3] at hsub3
          rcases hsub3 with hoof3 | hok3
          · left
            simp only [hok1, hok2, hoof3]
          · right
            simp only [hok1, hok2, hok3, List.foldl_cons]
            exact ok_pos_congr (by rw [encodePairs_cons]; simp; omega)
termination_by ps => sizeOf ps

end

theorem pairChunks_map_fst (d : List (List Nat × BValue)) :
    (pairChunks d).map Prod.fst = d.map Prod.fst := by
  induction d with
  | nil => rfl
  | cons p ps ih =>
    obtain ⟨k, v⟩ := p
    simp [pairChunks_cons, ih]

/-! ### Claim theorems about the bencode codec -/

/-- C2: for every value accepted by `Encode` — byte strings, integers,
and lists and dictionaries composed of these, i.e. every valid
`BValue` — decoding the encoding succeeds and returns the value
itself. -/
theorem c2_decode_encode_roundtrip (v : BValue) (hv : validB v = true) :
    Decode (Encode v) = .ok v := by
  unfold Decode Encode
  have h := decodeAux_on_encode v hv (2 * (encode v).length + 1) [] []
  simp only [List.nil_append, List.append_nil, List.length_nil] at h
  rcases h with hoof | hok
  · exact absurd hoof (decodeAux_adequate (encode v) 0 _ (by omega))
  · rw [hok]
    rfl

/-- Witness for C2 at a concrete dictionary value. -/
theorem c2_witness :
    validB (.dict [([97], .int 1), ([98], .str [120])]) = true ∧
    Decode (Encode (.dict [([97], .int 1), ([98], .str [120])])) =
      .ok (.dict [([97], .int 1), ([98], .str [120])]) :=
  ⟨by decide, c2_decode_encode_roundtrip (.dict [([97], .int 1), ([98], .str [120])])
    (by decide)⟩

/-- C4 counterexample: the claim says `Decode "i042e"` and
`Decode "i-0e"` each fail, but both succeed — Go's
`strconv.ParseInt` accepts leading zeros and `-0`. -/
theorem c4_counterexample :
    Decode [105, 48, 52, 50, 101] = .ok (.int 42) ∧
    Decode [105, 45, 48, 101] = .ok (.int 0) :=
  ⟨rfl, rfl⟩

/-- C4 (amended): for every integer literal `i<payload>e` whose payload
is free of the terminator byte `e`, `Decode` succeeds with the value
`strconv.ParseInt(payload, 10, 64)` returns and fails with an integer
error exactly when `ParseInt` rejects the payload (empty payload, a
bare sign, a non-digit after the optional leading sign, or signed
64-bit overflow).  In particular every digit string â leading zeros
included â decodes to its numeric value, and `-` followed by any digit
string decodes to the negated value, so `"i042e"` gives 42 and
`"i-0e"` gives 0 (a leading `+` is accepted too). -/
theorem c4_integer_literals :
    (∀ s : List Nat, (∀ x ∈ s, x ≠ 101) →
      Decode (105 :: (s ++ [101])) =
        (match parseIntGo s with
         | some n => .ok (.int n)
         | none => .error .invalidInteger)) ∧
    (∀ ds : List Nat, ds ≠ [] → (∀ d ∈ ds, 48 ≤ d ∧ d ≤ 57) →
      digitsVal ds ≤ 2 ^ 63 - 1 →
      Decode (105 :: (ds ++ [101])) = .ok (.int (digitsVal ds))) ∧
    (∀ ds : List Nat, ds ≠ [] → (∀ d ∈ ds, 48 ≤ d ∧ d ≤ 57) →
      digitsVal ds ≤ 2 ^ 63 →
      Decode (105 :: ((45 :: ds) ++ [101])) =
        .ok (.int (-(digitsVal ds : Int)))) := by
  have hmain : ∀ s : List Nat, (∀ x ∈ s, x ≠ 101) →
      Decode (105 :: (s ++ [101])) =
        (match parseIntGo s with
         | some n => .ok (.int n)
         | none => .error .invalidInteger) := by
    intro s hs
    have hdec : decodeInt (105 :: (s ++ [101])) 0 =
        (match parseIntGo s with
         | some n => .ok (.int n, s.length + 2)
         | none => .error .invalidInteger) := by
      have hf : findFrom (105 :: (s ++ [101])) 1 101 = 1 + s.length := by
        have h := findFrom_append_found s [105] [] 101 hs
        simpa using h
      have hsl : slice (105 :: (s ++ [101])) 1 (1 + s.length) = s := by
        have h := slice_append_exact [105] s [101]
        simpa using h
      rw [decodeInt]
      rw [if_pos (⟨by simp only [List.length_cons]; omega, rfl⟩ :
        0 < (105 :: (s ++ [101])).length ∧
          (105 :: (s ++ [101])).getD 0 0 = 105)]
      simp only [Nat.zero_add]
      rw [hf]
      rw [if_pos (by simp only [List.length_cons, List.length_append,
        List.length_nil]; omega)]
      rw [hsl]
      rcases hp : parseIntGo s with - | n
      · rfl
      · simp only [show 1 + s.length + 1 = s.length + 2 from by omega]
    have hlen : (105 :: (s ++ [101])).length = s.length + 2 := by
      simp
    rw [Decode, hlen, decodeAux_succ]
    rw [if_pos (by simp only [List.length_cons]; omega :
      0 < (105 :: (s ++ [101])).length)]
    rw [if_pos (show (105 :: (s ++ [101])).getD 0 0 = 105 from rfl)]
    rw [hdec]
    rcases hp : parseIntGo s with - | n
    · rfl
    · rfl
  refine ⟨hmain, ?_, ?_⟩
  · intro ds hne hdig hbound
    have hs : ∀ x ∈ ds, x ≠ 101 := by
      intro x hx
      have := hdig x hx
      omega
    rw [hmain ds hs]
    rcases ds with - | ⟨c, rest⟩
    · exact absurd rfl hne
    · have hc := hdig c (List.mem_cons_self c rest)
      have h43 : (c == 43) = false := by simp; omega
      have h45 : (c == 45) = false := by simp; omega
      have hall : (c :: rest).all isDigit = true := by
        simp only [List.all_eq_true]
        intro d hd
        have := hdig d hd
        simp [isDigit]; omega
      have hp : parseIntGo (c :: rest) =
          some ((digitsVal (c :: rest) : Nat) : Int) := by
        simp [parseIntGo, h43, h45, hall]
        omega
      rw [hp]
  · intro ds hne hdig hbound
    have hs : ∀ x ∈ (45 :: ds), x ≠ 101 := by
      intro x hx
      rcases List.mem_cons.mp hx with h | h
      · omega
      · have := hdig x h
        omega
    rw [hmain (45 :: ds) hs]
    rcases ds with - | ⟨d, rest⟩
    · exact absurd rfl hne
    · have hall : (d :: rest).all isDigit = true := by
        simp only [List.all_eq_true]
        intro x hx
        have := hdig x hx
        simp [isDigit]; omega
      have hp : parseIntGo (45 :: d :: rest) =
          some (-(digitsVal (d :: rest) : Int)) := by
        simp [parseIntGo, hall]
        omega
      rw [hp]

/-- Witness for C4's amended theorem at concrete literals: `"i+42e"`
decodes to 42, `"i00e"` to 0, `"i-00e"` to 0, and `"i12x3e"` fails. -/
theorem c4_witness :
    Decode [105, 43, 52, 50, 101] = .ok (.int 42) ∧
    Decode [105, 48, 48, 101] = .ok (.int 0) ∧
    Decode [105, 45, 48, 48, 101] = .ok (.int 0) ∧
    Decode [105, 49, 50, 120, 51, 101] = .error .invalidInteger :=
  ⟨(c4_integer_literals.1 [43, 52, 50] (by decide)).trans (by rfl),
   (c4_integer_literals.2.1 [48, 48] (by decide) (by decide) (by decide)).trans
     (by rfl),
   (c4_integer_literals.2.2 [48, 48] (by decide) (by decide) (by decide)).trans
     (by rfl),
   (c4_integer_literals.1 [49, 50, 120, 51] (by decide)).trans (by rfl)⟩

/-- C8: for every dictionary accepted by `Encode` (distinct keys, as
in any Go map), the encoder emits the key/value chunks in the
`sortChunks` order, and that order lists the keys in strictly
ascending lexicographic byte order. -/
theorem c8_encode_dict_sorted_keys (d : List (List Nat × BValue))
    (h : (d.map Prod.fst).Nodup) :
    encode (.dict d) = 100 :: (joinChunks (sortChunks (pairChunks d)) ++ [101]) ∧
    List.Pairwise (fun a b => bytesLtB a b = true)
      ((sortChunks (pairChunks d)).map Prod.fst) := by
  refine ⟨encode_dict d, ?_⟩
  have hperm : List.Perm ((sortChunks (pairChunks d)).map Prod.fst)
      ((pairChunks d).map Prod.fst) := (sortChunks_perm (pairChunks d)).map Prod.fst
  have hnd : ((sortChunks (pairChunks d)).map Prod.fst).Nodup := by
    refine (List.Perm.nodup_iff hperm).mpr ?_
    rw [pairChunks_map_fst]
    exact h
  have hle : List.Pairwise (fun a b => bytesLeB a b = true)
      ((sortChunks (pairChunks d)).map Prod.fst) :=
    List.pairwise_map.mpr (sortChunks_pairwise (pairChunks d))
  have hne : List.Pairwise (fun a b => a ≠ b)
      ((sortChunks (pairChunks d)).map Prod.fst) := hnd
  exact (hle.and hne).imp (fun hab => bytesLtB_of_leB_of_ne hab.1 hab.2)

/-- Witness for C8 at a concrete two-key dictionary with unsorted
input order. -/
theorem c8_witness :
    encode (.dict [([98], .int 1), ([97], .int 2)]) =
      100 :: (joinChunks (sortChunks (pairChunks [([98], .int 1), ([97], .int 2)])) ++ [101]) ∧
    List.Pairwise (fun a b => bytesLtB a b = true)
      ((sortChunks (pairChunks [([98], .int 1), ([97], .int 2)])).map Prod.fst) :=
  c8_encode_dict_sorted_keys [([98], .int 1), ([97], .int 2)] (by decide)

/-- C9: `Decode` parses exactly one top-level value and silently
ignores trailing data: appending any suffix to an accepted input
leaves the decoded value unchanged, and the dropped final position is
never reported to the caller. -/
theorem c9_decode_ignores_trailing (b s : List Nat) (v : BValue)
    (h : Decode b = .ok v) : Decode (b ++ s) = .ok v := by
  unfold Decode at h ⊢
  cases hr : decodeAux (2 * b.length + 1) b 0 with
  | error e => rw [hr] at h; simp [Except.map] at h
  | ok r =>
    obtain ⟨v', p⟩ := r
    rw [hr] at h
    simp only [Except.map, Except.ok.injEq] at h
    subst h
    have hext := (decode_ext (2 * b.length + 1)).1 b s 0 (v', p) hr
    have hmono := decodeAux_mono
      (show 2 * b.length + 1 ≤ 2 * (b ++ s).length + 1 by simp) hext
    rw [hmono]
    rfl

/-- Witness for C9: `"i42e"` decodes to 42 with or without trailing
garbage. -/
theorem c9_witness :
    Decode [105, 52, 50, 101] = .ok (.int 42) ∧
    Decode ([105, 52, 50, 101] ++ [120, 121, 122]) = .ok (.int 42) :=
  ⟨rfl, c9_decode_ignores_trailing [105, 52, 50, 101] [120, 121, 122] (.int 42) rfl⟩

/-- C10: dictionary decoding accepts keys in any order, including
duplicates: decoding a dictionary body made of any pair sequence
succeeds and returns the Go map obtained by executing the
`dict[key] = value` assignments in order, so a later occurrence of a
key overwrites an earlier one and encodings differing only in
duplicate or reordered keys decode to the same map. -/
theorem c10_decode_dict_last_wins (ps : List (List Nat × BValue))
    (hv : ∀ p ∈ ps, validStr p.1 = true ∧ validB p.2 = true) :
    Decode (100 :: (encodePairs ps ++ [101])) =
      .ok (.dict (ps.foldl (fun a p => insertKV a p.1 p.2) [])) := by
  unfold Decode
  have hform : (100 :: (encodePairs ps ++ [101]) : List Nat) =
      [100] ++ (encodePairs ps ++ 101 :: []) := by simp
  have hsub := decodeDictItems_on_encode ps hv
    (2 * (100 :: (encodePairs ps ++ [101]) : List Nat).length) [100] [] []
  rw [← hform] at hsub
  have hlen1 : ([100] : List Nat).length = 1 := rfl
  rw [hlen1] at hsub
  rw [decodeAux_succ,
    if_pos (show 0 < (100 :: (encodePairs ps ++ [101]) : List Nat).length by simp),
    show (100 :: (encodePairs ps ++ [101]) : List Nat).getD 0 0 = 100 from rfl,
    if_neg (by omega : ¬ ((100 : Nat) = 105)),
    if_neg (by omega : ¬ ((100 : Nat) = 108)), if_pos rfl]
  rcases hsub with hoof | hok
  · exfalso
    refine (decode_adequate (2 * (100 :: (encodePairs ps ++ [101]) : List Nat).length)).2.2
      (100 :: (encodePairs ps ++ [101])) 1 [] ?_ hoof
    simp
    omega
  · rw [hok]
    rfl

/-- Witness for C10: a dictionary body with the key `"b"` twice and
keys out of order decodes to the map with the last value of `"b"`. -/
theorem c10_witness :
    Decode (100 :: (encodePairs [([98], .int 1), ([97], .int 2), ([98], .int 3)] ++ [101])) =
      .ok (.dict [([97], .int 2), ([98], .int 3)]) := by
  have h := c10_decode_dict_last_wins
    [([98], .int 1), ([97], .int 2), ([98], .int 3)] (by decide)
  rw [h]
  rfl

end Bencode

namespace Sha1

/-
  Executable model of the SHA-1 digest (FIPS 180-1), as computed by Go's
  `crypto/sha1` package, which src/torrent/torrent.go and
  src/client/client.go call through `sha1.Sum`.  Words are naturals
  reduced modulo 2^32.
-/

/-- Truncate to a 32-bit word. -/
def w32 (n : Nat) : Nat := n % 4294967296

/-- Rotate a 32-bit word left by `k`. -/
def rotl (k n : Nat) : Nat :=
  w32 (Nat.lor (Nat.shiftLeft n k) (Nat.shiftRight n (32 - k)))

/-- Big-endian 32-bit word from four bytes. -/
def be32 (b0 b1 b2 b3 : Nat) : Nat := ((b0 * 256 + b1) * 256 + b2) * 256 + b3

/-- Split a 64-byte block into sixteen big-endian words. -/
def wordsOf : List Nat → List Nat
  | b0 :: b1 :: b2 :: b3 :: rest => be32 b0 b1 b2 b3 :: wordsOf rest
  | _ => []

/-- Message-schedule expansion from 16 to 80 words. -/
def extendW : List Nat → Nat → List Nat
  | w, 0 => w
  | w, c + 1 =>
    extendW (w ++ [rotl 1 (Nat.xor
      (Nat.xor (w.getD (w.length - 3) 0) (w.getD (w.length - 8) 0))
      (Nat.xor (w.getD (w.length - 14) 0) (w.getD (w.length - 16) 0)))]) c

/-- Round function and constant for round `t`. -/
def fK (t b c d : Nat) : Nat × Nat :=
  if t < 20 then
    (Nat.lor (Nat.land b c) (Nat.land (Nat.xor b 4294967295) d), 1518500249)
  else if t < 40 then (Nat.xor (Nat.xor b c) d, 1859775393)
  else if t < 60 then
    (Nat.lor (Nat.lor (Nat.land b c) (Nat.land b d)) (Nat.land c d), 2400959708)
  else (Nat.xor (Nat.xor b c) d, 3395469782)

/-- One compression round. -/
def roundStep (st : Nat × Nat × Nat × Nat × Nat) (tw : Nat × Nat) :
    Nat × Nat × Nat × Nat × Nat :=
  match st, tw with
  | (a, b, c, d, e), (t, wt) =>
    match fK t b c d with
    | (f, k) => (w32 (rotl 5 a + f + e + k + wt), a, rotl 30 b, c, d)

/-- Compress one 64-byte block into the running state. -/
def processBlock (h : Nat × Nat × Nat × Nat × Nat) (block : List Nat) :
    Nat × Nat × Nat × Nat × Nat :=
  match h, ((extendW (wordsOf block) 64).enum).foldl roundStep h with
  | (h0, h1, h2, h3, h4), (a, b, c, d, e) =>
    (w32 (h0 + a), w32 (h1 + b), w32 (h2 + c), w32 (h3 + d), w32 (h4 + e))

/-- Fuel-indexed 64-byte chunking of the padded message. -/
def chunksAux : Nat → List Nat → List (List Nat)
  | 0, _ => []
  | f + 1, l => if l.isEmpty then [] else l.take 64 :: chunksAux f (l.drop 64)

/-- Big-endian 64-bit length field. -/
def be64Bytes (n : Nat) : List Nat :=
  [n / 2 ^ 56 % 256, n / 2 ^ 48 % 256, n / 2 ^ 40 % 256, n / 2 ^ 32 % 256,
   n / 2 ^ 24 % 256, n / 2 ^ 16 % 256, n / 2 ^ 8 % 256, n % 256]

/-- Big-endian serialization of one 32-bit word. -/
def be32Bytes (n : Nat) : List Nat :=
  [n / 2 ^ 24 % 256, n / 2 ^ 16 % 256, n / 2 ^ 8 % 256, n % 256]

/-- Merkle–Damgård padding: `0x80`, zeros to 56 mod 64, then the
bit length as a big-endian 64-bit integer. -/
def padMsg (m : List Nat) : List Nat :=
  m ++ 128 :: (List.replicate ((119 - m.length % 64) % 64) 0 ++ be64Bytes (8 * m.length))

/-- The 20-byte SHA-1 digest of a byte sequence. -/
def sha1 (m : List Nat) : List Nat :=
  match (chunksAux (padMsg m).length (padMsg m)).foldl processBlock
      (1732584193, 4023233417, 2562383102, 271733878, 3285377520) with
  | (h0, h1, h2, h3, h4) =>
    be32Bytes h0 ++ be32Bytes h1 ++ be32Bytes h2 ++ be32Bytes h3 ++ be32Bytes h4

end Sha1

namespace Torrent

open Bencode

/-- `TorrentFile` from src/torrent/torrent.go.  Go strings and byte
arrays are byte lists; the Go `int` fields are integers. -/
structure TorrentFile where
  announce : List Nat
  infoHash : List Nat
  pieceHashes : List (List Nat)
  pieceLength : Int
  length : Int
  name : List Nat
  deriving DecidableEq, Repr

/-- ASCII bytes of a literal key. -/
def bs (s : String) : List Nat := s.data.map Char.toNat

/-- Go map lookup `dict[k]` on the canonical association-list
representation (keys unique, so the first match is the entry). -/
def lookupKV : List (List Nat × BValue) → List Nat → Option BValue
  | [], _ => none
  | (k, v) :: rest, key => if k = key then some v else lookupKV rest key

/-- `parseTorrentDict` from src/torrent/torrent.go lines 105-155: look
up and type-check `announce`, `info`, `pieces`, `piece length`,
`length` and `name`, reject a `pieces` string whose length is not a
multiple of 20, and slice `pieces` into the 20-byte piece hashes.  The
`InfoHash` field is left at its Go zero value (20 zero bytes); `Parse`
fills it in. -/
def parseTorrentDict (dict : List (List Nat × BValue)) : Except String TorrentFile :=
  match lookupKV dict (bs "announce") with
  | some (.str announce) =>
    match lookupKV dict (bs "info") with
    | some (.dict infoDict) =>
      match lookupKV infoDict (bs "pieces") with
      | some (.str pieces) =>
        match lookupKV infoDict (bs "piece length") with
        | some (.int pieceLength) =>
          match lookupKV infoDict (bs "length") with
          | some (.int len) =>
            match lookupKV infoDict (bs "name") with
            | some (.str name) =>
              if pieces.length % 20 ≠ 0 then
                .error "invalid pieces length (must be multiple of 20)"
              else
                .ok { announce := announce, infoHash := List.replicate 20 0,
                      pieceHashes := (List.range (pieces.length / 20)).map
                        (fun i => (pieces.drop (20 * i)).take 20),
                      pieceLength := pieceLength, length := len, name := name }
            | _ => .error "missing or invalid name"
          | _ => .error "missing or invalid length"
        | _ => .error "missing or invalid piece length"
      | _ => .error "missing or invalid pieces"
    | _ => .error "missing or invalid info dictionary"
  | _ => .error "missing or invalid announce URL"

/-- `Parse` from src/torrent/torrent.go lines 73-103: bencode-decode
the input, require a dictionary, run `parseTorrentDict`, then look up
the decoded `info` value, re-encode it with `bencode.Encode` (which
cannot fail on a decoded value) and store the SHA-1 of that
re-encoding as the info hash. -/
def Parse (data : List Nat) : Except String TorrentFile :=
  match Decode data with
  | .error _ => .error "failed to decode torrent"
  | .ok v =>
    match v with
    | .dict torrentDict =>
      match parseTorrentDict torrentDict with
      | .error e => .error e
      | .ok t =>
        match lookupKV torrentDict (bs "info") with
        | none => .error "missing info dictionary"
        | some infoV => .ok { t with infoHash := Sha1.sha1 (encode infoV) }
    | _ => .error "torrent file must be a dictionary"

/-- `Peer` from src/torrent/tracker.go: a 4-byte IPv4 address and a
16-bit port. -/
structure Peer where
  ip : List Nat
  port : Nat
  deriving DecidableEq, Repr

/-- `parsePeers` from src/torrent/tracker.go lines 95-121: reject
inputs whose length is not a multiple of 6 (the Go error message also
interpolates the offending length), otherwise cut the input into
6-byte records — 4 address bytes followed by a big-endian 16-bit
port. -/
def parsePeers (peersData : List Nat) : Except String (List Peer) :=
  if peersData.length % 6 ≠ 0 then
    .error "invalid peers data length (must be multiple of 6)"
  else
    .ok ((List.range (peersData.length / 6)).map (fun i =>
      { ip := (peersData.drop (6 * i)).take 4,
        port := 256 * peersData.getD (6 * i + 4) 0 + peersData.getD (6 * i + 5) 0 }))

/-! ### Claim theorems about the metainfo and peer parsers -/

/-- A single-file torrent whose `info` dictionary is encoded
non-canonically: the `piece length` value is written `i01e` (leading
zero), which the decoder accepts as 1 but the encoder re-emits as
`i1e`.  The bytes spell
`d8:announce3:abc4:infod6:lengthi1e4:name1:a12:piece lengthi01e6:pieces0:ee`. -/
def exTorrent : List Nat :=
  [100, 56, 58, 97, 110, 110, 111, 117, 110, 99, 101, 51, 58, 97, 98, 99,
   52, 58, 105, 110, 102, 111, 100, 54, 58, 108, 101, 110, 103, 116, 104,
   105, 49, 101, 52, 58, 110, 97, 109, 101, 49, 58, 97, 49, 50, 58, 112,
   105, 101, 99, 101, 32, 108, 101, 110, 103, 116, 104, 105, 48, 49, 101,
   54, 58, 112, 105, 101, 99, 101, 115, 48, 58, 101, 101]

/-- The `info` sub-dictionary of `exTorrent` exactly as it appears in
the original input bytes (with the non-canonical `i01e`). -/
def exOrigInfo : List Nat :=
  [100, 54, 58, 108, 101, 110, 103, 116, 104, 105, 49, 101, 52, 58, 110,
   97, 109, 101, 49, 58, 97, 49, 50, 58, 112, 105, 101, 99, 101, 32, 108,
   101, 110, 103, 116, 104, 105, 48, 49, 101, 54, 58, 112, 105, 101, 99,
   101, 115, 48, 58, 101]

set_option maxRecDepth 20000 in
/-- C1 counterexample: `Parse` accepts `exTorrent`, but the returned
`InfoHash` is not the SHA-1 of the `info` sub-dictionary as it appears
in the original input bytes — the code hashes a re-encoded copy
(src/torrent/torrent.go lines 95-100), which differs on this
non-canonically encoded input. -/
theorem c1_counterexample :
    (Parse exTorrent).isOk = true ∧
    (Parse exTorrent).map TorrentFile.infoHash ≠ .ok (Sha1.sha1 exOrigInfo) := by
  constructor
  · rfl
  · decide

/-- C1 (amended): for every input accepted by `Parse`, the returned
`InfoHash` is the 20-byte SHA-1 of the *re-encoding*
`bencode.Encode(info)` of the decoded `info` value, not of the
original input slice; the two coincide only when the original `info`
encoding is canonical. -/
theorem c1_infohash_is_reencoded (data : List Nat) (t : TorrentFile)
    (h : Parse data = .ok t) :
    ∃ td info, Decode data = .ok (.dict td) ∧ lookupKV td (bs "info") = some info ∧
      t.infoHash = Sha1.sha1 (Bencode.encode info) := by
  unfold Parse at h
  split at h
  · simp at h
  · rename_i v hdec
    split at h
    · rename_i td
      split at h
      · simp at h
      · rename_i t2 hpt
        split at h
        · simp at h
        · rename_i info hinfo
          simp only [Except.ok.injEq] at h
          subst h
          exact ⟨td, info, hdec, hinfo, rfl⟩
    · simp at h

/-- The parsed form of `exTorrent`; its info hash is the SHA-1 of the
re-encoded info dictionary. -/
def exParsed : TorrentFile :=
  { announce := [97, 98, 99],
    infoHash := [207, 236, 205, 3, 69, 6, 122, 11, 137, 220, 70, 234, 114,
      24, 106, 44, 174, 67, 154, 229],
    pieceHashes := [], pieceLength := 1, length := 1, name := [97] }

set_option maxRecDepth 20000 in
/-- Witness for C1's amended theorem at the concrete torrent. -/
theorem c1_witness :
    ∃ td info, Decode exTorrent = .ok (.dict td) ∧
      lookupKV td (bs "info") = some info ∧
      exParsed.infoHash = Sha1.sha1 (Bencode.encode info) :=
  c1_infohash_is_reencoded exTorrent exParsed (by decide)

/-- The `info` dictionary of a root dictionary whose `pieces` string
is empty. -/
def exInfoEmpty : List (List Nat × BValue) :=
  [(bs "length", .int 1), (bs "name", .str (bs "n")),
   (bs "piece length", .int 1), (bs "pieces", .str [])]

/-- A complete, well-typed root dictionary with empty `pieces`. -/
def exRootEmpty : List (List Nat × BValue) :=
  [(bs "announce", .str (bs "a")), (bs "info", .dict exInfoEmpty)]

/-- C5 counterexample: the claim says `pieces` is accepted only when
its length is a *nonzero* multiple of 20, but `parseTorrentDict`
accepts an empty `pieces` string (0 % 20 == 0) and returns zero piece
hashes. -/
theorem c5_counterexample :
    parseTorrentDict exRootEmpty =
      .ok ⟨bs "a", List.replicate 20 0, [], 1, 1, bs "n"⟩ := by
  decide

/-- C5 (amended): with all six fields present and well-typed,
`parseTorrentDict` accepts `pieces` exactly when its byte length is a
multiple of 20 — zero included — failing with the error naming the
`pieces` field otherwise; on success there are exactly
`len(pieces)/20` piece hashes, the `i`-th being bytes
`[20*i, 20*i+20)` of `pieces`. -/
theorem c5_pieces_multiple_of_20 (dict infoDict : List (List Nat × BValue))
    (ann pcs nm : List Nat) (plen len : Int)
    (h1 : lookupKV dict (bs "announce") = some (.str ann))
    (h2 : lookupKV dict (bs "info") = some (.dict infoDict))
    (h3 : lookupKV infoDict (bs "pieces") = some (.str pcs))
    (h4 : lookupKV infoDict (bs "piece length") = some (.int plen))
    (h5 : lookupKV infoDict (bs "length") = some (.int len))
    (h6 : lookupKV infoDict (bs "name") = some (.str nm)) :
    (pcs.length % 20 = 0 →
      parseTorrentDict dict = .ok ⟨ann, List.replicate 20 0,
        (List.range (pcs.length / 20)).map
          (fun i => (pcs.drop (20 * i)).take 20), plen, len, nm⟩ ∧
      ((List.range (pcs.length / 20)).map
        (fun i => (pcs.drop (20 * i)).take 20)).length = pcs.length / 20) ∧
    (pcs.length % 20 ≠ 0 →
      parseTorrentDict dict = .error "invalid pieces length (must be multiple of 20)") := by
  unfold parseTorrentDict
  simp only [h1, h2, h3, h4, h5, h6]
  constructor
  · intro hm
    rw [if_neg (by omega)]
    exact ⟨rfl, by simp⟩
  · intro hm
    rw [if_pos hm]

/-- An `info` dictionary with a 40-byte `pieces` string. -/
def exInfoForty : List (List Nat × BValue) :=
  [(bs "length", .int 40), (bs "name", .str (bs "n")),
   (bs "piece length", .int 20), (bs "pieces", .str (List.range 40))]

/-- Root dictionary around `exInfoForty`. -/
def exRootForty : List (List Nat × BValue) :=
  [(bs "announce", .str (bs "a")), (bs "info", .dict exInfoForty)]

/-- Witness for C5's amended theorem: 40 bytes of `pieces` parse into
exactly two 20-byte hashes. -/
theorem c5_witness :
    parseTorrentDict exRootForty =
      .ok ⟨bs "a", List.replicate 20 0,
        (List.range ((List.range 40).length / 20)).map
          (fun i => (((List.range 40) : List Nat).drop (20 * i)).take 20),
        20, 40, bs "n"⟩ ∧
    ((List.range ((List.range 40).length / 20)).map
      (fun i => (((List.range 40) : List Nat).drop (20 * i)).take 20)).length =
      (List.range 40).length / 20 :=
  (c5_pieces_multiple_of_20 exRootForty exInfoForty (bs "a") (List.range 40)
    (bs "n") 20 40 rfl rfl rfl rfl rfl rfl).1 (by decide)

/-- C6: `parsePeers` succeeds exactly on inputs whose length is a
multiple of 6, and then returns `len/6` peers where the `i`-th peer's
IPv4 address is bytes `[6i, 6i+4)` and its port is the big-endian
16-bit integer in bytes `[6i+4, 6i+6)`. -/
theorem c6_parsePeers_spec (b : List Nat) :
    ((parsePeers b).isOk = true ↔ b.length % 6 = 0) ∧
    (∀ peers, parsePeers b = .ok peers →
      peers.length = b.length / 6 ∧
      ∀ i, i < b.length / 6 →
        peers.getD i ⟨[], 0⟩ =
          ⟨(b.drop (6 * i)).take 4,
           256 * b.getD (6 * i + 4) 0 + b.getD (6 * i + 5) 0⟩) := by
  constructor
  · unfold parsePeers
    by_cases hm : b.length % 6 = 0
    · rw [if_neg (by omega)]
      simp [hm, Except.isOk, Except.toBool]
    · rw [if_pos hm]
      simp [hm, Except.isOk, Except.toBool]
  · intro peers hp
    unfold parsePeers at hp
    split at hp
    · simp at hp
    · simp only [Except.ok.injEq] at hp
      subst hp
      refine ⟨by simp, ?_⟩
      intro i hi
      rw [List.getD_eq_getElem?_getD, List.getElem?_map, List.getElem?_range hi]
      rfl

/-- Witness for C6 at the repository's own test vector: two peers
`192.168.1.1:8080` and `10.0.0.1:6881`. -/
theorem c6_witness :
    (parsePeers [192, 168, 1, 1, 31, 144, 10, 0, 0, 1, 26, 225]).isOk = true ∧
    parsePeers [192, 168, 1, 1, 31, 144, 10, 0, 0, 1, 26, 225] =
      .ok [⟨[192, 168, 1, 1], 8080⟩, ⟨[10, 0, 0, 1], 6881⟩] :=
  ⟨(c6_parsePeers_spec [192, 168, 1, 1, 31, 144, 10, 0, 0, 1, 26, 225]).1.mpr
    (by decide), by decide⟩

end Torrent

namespace Client

/-!
## The peer-wire client: `src/client/client.go`

`pieceProgress` and its methods `readMessage` / `copyPieceData`, and the
request/read loop of `attemptDownloadPiece`.  The peer message parsers
(`ParsePieceMessage`, `ParseHaveMessage`, the message-ID constants and the
bitfield) live in `peer/message.go`, which is not part of the sources;
those definitions are modelled from the spec (§4.4) and say so in their
doc comments.  Bytes are `Nat`s in `[0, 256)`; the network connection is
abstracted as the list of messages the peer sends.
-/

/-- Modelled from the spec: the message-ID catalog of §4.4
(`peer/message.go` is missing from the sources). `choke = 0`,
`unchoke = 1`, `have = 4`, `piece = 7`. -/
def MsgChoke : Nat := 0

/-- Modelled from the spec: message-ID 1, `unchoke`. -/
def MsgUnchoke : Nat := 1

/-- Modelled from the spec: message-ID 4, `have`. -/
def MsgHave : Nat := 4

/-- Modelled from the spec: message-ID 7, `piece`. -/
def MsgPiece : Nat := 7

/-- Modelled from the spec: a post-handshake peer message — either a
keep-alive (length 0 on the wire, `nil` in Go) or a message-ID with a
payload (`Message` of the missing `peer/message.go`). -/
inductive Msg where
  | keepAlive : Msg
  | msg (id : Nat) (payload : List Nat) : Msg
deriving DecidableEq, Repr

/-- Big-endian 32-bit value of four bytes (`binary.BigEndian.Uint32`). -/
def be32 (b0 b1 b2 b3 : Nat) : Nat :=
  ((b0 * 256 + b1) * 256 + b2) * 256 + b3

/-- Modelled from the spec: `peer.ParsePieceMessage(index, buf)` of the
missing `peer/message.go`.  A `piece` payload is a 4-byte big-endian
index, a 4-byte big-endian begin offset, then the block bytes; the
parser rejects payloads of the wrong (too short) length and payloads
whose embedded index does not match the expected piece, returning
`(begin, block)` otherwise. -/
def ParsePieceMessage (index : Nat) (buf : List Nat) :
    Except String (Nat × List Nat) :=
  match buf with
  | b0 :: b1 :: b2 :: b3 :: b4 :: b5 :: b6 :: b7 :: block =>
    if be32 b0 b1 b2 b3 ≠ index then .error "piece message has wrong index"
    else .ok (be32 b4 b5 b6 b7, block)
  | _ => .error "piece message payload too short"

/-- Modelled from the spec: `peer.ParseHaveMessage(buf)` of the missing
`peer/message.go`.  A `have` payload is exactly a 4-byte big-endian
piece index; any other length is rejected. -/
def ParseHaveMessage (buf : List Nat) : Except String Nat :=
  match buf with
  | [b0, b1, b2, b3] => .ok (be32 b0 b1 b2 b3)
  | _ => .error "have message payload must be 4 bytes"

/-- Modelled from the spec: `Bitfield.SetPiece(i)` of the missing
`peer/message.go` — set bit `i` of the bitfield, MSB-first within each
byte; an index beyond the bitfield leaves it unchanged. -/
def SetPiece (bf : List Nat) (i : Nat) : List Nat :=
  if i / 8 < bf.length then
    bf.set (i / 8) (Nat.lor (bf.getD (i / 8) 0) (Nat.shiftLeft 1 (7 - i % 8)))
  else bf

/-- `MaxBlockSize = 16384` of `client.go`. -/
def MaxBlockSize : Nat := 16384

/-- `MaxBacklog = 5` of `client.go` (an `int` in Go, compared against
the `backlog` counter, which we model as `Int`). -/
def MaxBacklog : Int := 5

/-- The `pieceProgress` struct of `client.go`, together with the two
fields of the `peer.Client` it mutates (`Choked`, `Bitfield`).
`downloaded` and `requested` are byte counters (never assigned negative
values, so `Nat`); `backlog` is a Go `int` that is decremented without a
guard, so it is modelled as `Int`. -/
structure DState where
  index : Nat
  choked : Bool
  bitfield : List Nat
  buf : List Nat
  downloaded : Nat
  requested : Nat
  backlog : Int
deriving DecidableEq, Repr

/-- `copy(state.buf[begin:], block)` under the bounds checks of
`copyPieceData`: the block overwrites `buf[off, off+|block|)`. -/
def writeAt (buf : List Nat) (off : Nat) (block : List Nat) : List Nat :=
  buf.take off ++ block ++ buf.drop (off + block.length)

/-- `pieceProgress.copyPieceData` of `client.go`: parse the piece
payload, reject a begin offset at or past the end of the buffer, reject
a block that would run past the end, else copy the block in at `begin`
and return its length (paired here with the updated buffer). -/
def copyPieceData (st : DState) (index : Nat) (buf : List Nat) :
    Except String (Nat × List Nat) :=
  match ParsePieceMessage index buf with
  | .error e => .error e
  | .ok (b, block) =>
    if b ≥ st.buf.length then .error "begin offset too high"
    else if b + block.length > st.buf.length then .error "data too long"
    else .ok (block.length, writeAt st.buf b block)

/-- `pieceProgress.readMessage` of `client.go`: process one incoming
peer message.  A keep-alive is ignored; `unchoke`/`choke` flip the
choked flag; `have` sets a bitfield bit; `piece` copies data via
`copyPieceData`, then adds the returned length to `downloaded` and
decrements `backlog` (unconditionally); other IDs are ignored. -/
def readMessage (st : DState) (m : Msg) : Except String DState :=
  match m with
  | .keepAlive => .ok st
  | .msg id payload =>
    if id = MsgUnchoke then .ok { st with choked := false }
    else if id = MsgChoke then .ok { st with choked := true }
    else if id = MsgHave then
      match ParseHaveMessage payload with
      | .error e => .error e
      | .ok i => .ok { st with bitfield := SetPiece st.bitfield i }
    else if id = MsgPiece then
      match copyPieceData st st.index payload with
      | .error e => .error e
      | .ok (n, buf2) =>
        .ok { st with buf := buf2, downloaded := st.downloaded + n,
                      backlog := st.backlog - 1 }
    else .ok st

/-- The inner request loop of `attemptDownloadPiece`: while
`backlog < MaxBacklog && requested < pw.length`, send a request of
`min(MaxBlockSize, length - requested)` bytes, increment `backlog` and
add the block size to `requested`.  `fuel` bounds the recursion; each
iteration raises `requested` by at least one, so `len + 1` units always
reach the loop's exit condition. -/
def sendRequests (len : Nat) : Nat → DState → DState
  | 0, st => st
  | fuel + 1, st =>
    if st.backlog < MaxBacklog ∧ st.requested < len then
      sendRequests len fuel
        { st with backlog := st.backlog + 1,
                  requested := st.requested + min MaxBlockSize (len - st.requested) }
    else st

/-- The request phase of one iteration of `attemptDownloadPiece`'s
outer loop: if not choked, run the inner request loop. -/
def sendPhase (len : Nat) (st : DState) : DState :=
  if st.choked then st else sendRequests len (len + 1) st

/-- One iteration of the outer loop of `attemptDownloadPiece`: while
`downloaded < pw.length`, send requests (if unchoked) and read one
message.  Once `downloaded ≥ len` the loop has exited and further
messages are not consumed. -/
def loopIter (len : Nat) (st : DState) (m : Msg) : Except String DState :=
  if st.downloaded < len then readMessage (sendPhase len st) m else .ok st

/-- The outer loop of `attemptDownloadPiece`, fed by the list of
messages the peer sends; stops at the first error. -/
def runLoop (len : Nat) (msgs : List Msg) (st : DState) : Except String DState :=
  match msgs with
  | [] => .ok st
  | m :: rest =>
    match loopIter len st m with
    | .error e => .error e
    | .ok st2 => runLoop len rest st2

/-- The initial `pieceProgress` of `attemptDownloadPiece`: zeroed
counters and a fresh buffer of `pw.length` zero bytes.  `Choked` is
`true` as `peer.New` sets it. -/
def initState (index : Nat) (bf : List Nat) (len : Nat) : DState :=
  { index := index, choked := true, bitfield := bf,
    buf := List.replicate len 0, downloaded := 0, requested := 0, backlog := 0 }


/-!
### Ghost instrumentation for the download loop

The loop of `attemptDownloadPiece` trusts the peer: an unsolicited
`piece` message still raises `downloaded` and lowers `backlog`.  To
state the spec's invariants for well-behaved peers we pair the real
state with a ghost list of outstanding requests `(begin, size)`:
sending a request appends to it, an accepted `piece` block removes its
matching entry, and a per-step flag records whether every accepted
block did match an outstanding request.  The ghost run erases to the
real run (`ghostRun_st`).
-/

/-- The real loop state paired with the ghost list of outstanding
requests `(begin, size)`. -/
structure GState where
  st : DState
  out : List (Nat × Nat)
deriving DecidableEq, Repr

/-- Total size of the outstanding requests. -/
def outSum (out : List (Nat × Nat)) : Nat := (out.map Prod.snd).sum

/-- Remove the first occurrence of a pair from the outstanding list. -/
def removeFirst : List (Nat × Nat) → Nat × Nat → List (Nat × Nat)
  | [], _ => []
  | p :: rest, q => if p = q then rest else p :: removeFirst rest q

/-- `sendRequests` instrumented with the ghost list: each sent request
`(requested, blockSize)` is appended to `out`. -/
def sendRequestsG (len : Nat) : Nat → GState → GState
  | 0, g => g
  | fuel + 1, g =>
    if g.st.backlog < MaxBacklog ∧ g.st.requested < len then
      sendRequestsG len fuel
        ⟨{ g.st with
             backlog := g.st.backlog + 1,
             requested := g.st.requested + min MaxBlockSize (len - g.st.requested) },
         g.out ++ [(g.st.requested, min MaxBlockSize (len - g.st.requested))]⟩
    else g

/-- `sendPhase` instrumented with the ghost list. -/
def ghostSend (len : Nat) (g : GState) : GState :=
  if g.st.choked then g else sendRequestsG len (len + 1) g

/-- `readMessage` instrumented with the ghost list: an accepted `piece`
block removes its `(begin, size)` entry and the flag records whether the
entry was outstanding. -/
def ghostRead (g : GState) (m : Msg) : Except String (GState × Bool) :=
  match readMessage g.st m, m with
  | .error e, _ => .error e
  | .ok st2, .keepAlive => .ok (⟨st2, g.out⟩, true)
  | .ok st2, .msg id payload =>
    if id = MsgPiece then
      match ParsePieceMessage g.st.index payload with
      | .ok (b, block) =>
        .ok (⟨st2, removeFirst g.out (b, block.length)⟩,
             decide ((b, block.length) ∈ g.out))
      | .error _ => .ok (⟨st2, g.out⟩, true)
    else .ok (⟨st2, g.out⟩, true)

/-- `loopIter` instrumented with the ghost list. -/
def ghostIter (len : Nat) (g : GState) (m : Msg) : Except String (GState × Bool) :=
  if g.st.downloaded < len then ghostRead (ghostSend len g) m else .ok (g, true)

/-- `runLoop` instrumented with the ghost list; the resulting flag is
the conjunction of the per-step flags (the peer was well-behaved). -/
def ghostRun (len : Nat) (msgs : List Msg) (g : GState) :
    Except String (GState × Bool) :=
  match msgs with
  | [] => .ok (g, true)
  | m :: rest =>
    match ghostIter len g m with
    | .error e => .error e
    | .ok (g2, ok1) =>
      match ghostRun len rest g2 with
      | .error e => .error e
      | .ok (g3, ok2) => .ok (g3, ok1 && ok2)

/-- The loop invariant: every downloaded or outstanding byte was
requested, `backlog` counts the outstanding requests, and no more than
the piece length has been requested. -/
def ghostInv (len : Nat) (g : GState) : Prop :=
  g.st.downloaded + outSum g.out = g.st.requested ∧
  g.st.backlog = (g.out.length : Int) ∧
  g.st.requested ≤ len

theorem sendRequestsG_st (len : Nat) :
    ∀ fuel g, (sendRequestsG len fuel g).st = sendRequests len fuel g.st := by
  intro fuel
  induction fuel with
  | zero => intro g; rfl
  | succ f ih =>
    intro g
    simp only [sendRequestsG, sendRequests]
    by_cases hc : g.st.backlog < MaxBacklog ∧ g.st.requested < len
    · rw [if_pos hc, if_pos hc]
      exact ih _
    · rw [if_neg hc, if_neg hc]

theorem sendRequestsG_inv (len : Nat) :
    ∀ fuel g, ghostInv len g → ghostInv len (sendRequestsG len fuel g) := by
  intro fuel
  induction fuel with
  | zero => intro g h; exact h
  | succ f ih =>
    intro g h
    simp only [sendRequestsG]
    by_cases hc : g.st.backlog < MaxBacklog ∧ g.st.requested < len
    · rw [if_pos hc]
      apply ih
      obtain ⟨h1, h2, h3⟩ := h
      refine ⟨?_, ?_, ?_⟩
      · dsimp only
        simp only [outSum, List.map_append, List.sum_append, List.map_cons,
          List.map_nil, List.sum_cons, List.sum_nil] at h1 ⊢
        omega
      · dsimp only
        simp only [List.length_append, List.length_cons, List.length_nil]
        push_cast
        omega
      · dsimp only
        have hm : min MaxBlockSize (len - g.st.requested) ≤ len - g.st.requested :=
          Nat.min_le_right _ _
        have hlt := hc.2
        omega
    · rw [if_neg hc]
      exact h

theorem removeFirst_length (out : List (Nat × Nat)) (p : Nat × Nat)
    (h : p ∈ out) : (removeFirst out p).length + 1 = out.length := by
  induction out with
  | nil => cases h
  | cons q rest ih =>
    rw [removeFirst]
    by_cases hq : q = p
    · rw [if_pos hq]
      simp
    · rw [if_neg hq]
      simp only [List.length_cons]
      have hmem : p ∈ rest := by
        cases h with
        | head => exact absurd rfl hq
        | tail _ h2 => exact h2
      rw [← ih hmem]

theorem outSum_removeFirst (out : List (Nat × Nat)) (p : Nat × Nat)
    (h : p ∈ out) : outSum (removeFirst out p) + p.2 = outSum out := by
  induction out with
  | nil => cases h
  | cons q rest ih =>
    rw [removeFirst]
    by_cases hq : q = p
    · rw [if_pos hq]
      subst hq
      simp only [outSum, List.map_cons, List.sum_cons]
      omega
    · rw [if_neg hq]
      simp only [outSum, List.map_cons, List.sum_cons] at ih ⊢
      have hmem : p ∈ rest := by
        cases h with
        | head => exact absurd rfl hq
        | tail _ h2 => exact h2
      have := ih hmem
      omega


theorem ghostRead_st (g : GState) (m : Msg) :
    Except.map (fun p => p.1.st) (ghostRead g m) = readMessage g.st m := by
  cases m with
  | keepAlive =>
    rcases hr : readMessage g.st .keepAlive with e | st2 <;>
      simp [ghostRead, hr, Except.map]
  | msg id payload =>
    rcases hr : readMessage g.st (.msg id payload) with e | st2
    · simp [ghostRead, hr, Except.map]
    · by_cases hid : id = MsgPiece
      · subst hid
        rcases hp : ParsePieceMessage g.st.index payload with e2 | pr
        · simp [ghostRead, hr, hp, Except.map]
        · rcases pr with ⟨b, block⟩
          simp [ghostRead, hr, hp, Except.map]
      · simp [ghostRead, hr, hid, Except.map]

theorem ghostIter_st (len : Nat) (g : GState) (m : Msg) :
    Except.map (fun p => p.1.st) (ghostIter len g m) = loopIter len g.st m := by
  rw [ghostIter, loopIter]
  by_cases hd : g.st.downloaded < len
  · rw [if_pos hd, if_pos hd]
    have hs : (ghostSend len g).st = sendPhase len g.st := by
      rw [ghostSend, sendPhase]
      cases hch : g.st.choked
      · simp only [hch, Bool.false_eq_true, if_false]
        exact sendRequestsG_st len (len + 1) g
      · simp only [hch, if_true]
    rw [← hs]
    exact ghostRead_st (ghostSend len g) m
  · rw [if_neg hd, if_neg hd]
    rfl

theorem ghostRun_st (len : Nat) :
    ∀ (msgs : List Msg) (g : GState),
      Except.map (fun p => p.1.st) (ghostRun len msgs g) = runLoop len msgs g.st := by
  intro msgs
  induction msgs with
  | nil => intro g; rfl
  | cons m rest ih =>
    intro g
    rw [ghostRun, runLoop]
    have he := ghostIter_st len g m
    rcases hi : ghostIter len g m with e | pr
    · rw [hi] at he
      simp only [Except.map] at he
      rw [← he]
      rfl
    · rcases pr with ⟨g2, ok1⟩
      rw [hi] at he
      simp only [Except.map] at he
      rw [← he]
      dsimp only
      rw [← ih g2]
      rcases hr2 : ghostRun len rest g2 with e2 | pr2
      · simp [hr2, Except.map]
      · rcases pr2 with ⟨g3, ok2⟩
        simp [hr2, Except.map]

theorem ghostRead_inv (len : Nat) (g g2 : GState) (m : Msg)
    (h : ghostRead g m = .ok (g2, true)) (hinv : ghostInv len g) :
    ghostInv len g2 := by
  have hgen : ∀ st2 : DState,
      st2.downloaded = g.st.downloaded → st2.requested = g.st.requested →
      st2.backlog = g.st.backlog → g2 = ⟨st2, g.out⟩ → ghostInv len g2 := by
    intro st2 hd hr hb hg
    obtain ⟨i1, i2, i3⟩ := hinv
    subst hg
    refine ⟨?_, ?_, ?_⟩ <;> dsimp only
    · rw [hd, hr]
      exact i1
    · rw [hb]
      exact i2
    · rw [hr]
      exact i3
  cases m with
  | keepAlive =>
    rw [show ghostRead g .keepAlive = .ok (⟨g.st, g.out⟩, true) from rfl] at h
    exact hgen g.st rfl rfl rfl ((Prod.mk.inj (Except.ok.inj h)).1).symm
  | msg id payload =>
    by_cases h1 : id = MsgUnchoke
    · subst h1
      rw [show ghostRead g (.msg MsgUnchoke payload) =
            .ok (⟨{ g.st with choked := false }, g.out⟩, true) from rfl] at h
      exact hgen { g.st with choked := false } rfl rfl rfl
        ((Prod.mk.inj (Except.ok.inj h)).1).symm
    · by_cases h2 : id = MsgChoke
      · subst h2
        rw [show ghostRead g (.msg MsgChoke payload) =
              .ok (⟨{ g.st with choked := true }, g.out⟩, true) from rfl] at h
        exact hgen { g.st with choked := true } rfl rfl rfl
          ((Prod.mk.inj (Except.ok.inj h)).1).symm
      · by_cases h3 : id = MsgHave
        · subst h3
          have hrm : readMessage g.st (.msg MsgHave payload) =
              match ParseHaveMessage payload with
              | .error e => .error e
              | .ok i =>
                .ok { g.st with bitfield := SetPiece g.st.bitfield i } := rfl
          rcases hph : ParseHaveMessage payload with e | i
          · have hrm2 : readMessage g.st (.msg MsgHave payload) = .error e := by
              rw [hrm, hph]
            have hgr : ghostRead g (.msg MsgHave payload) = .error e := by
              simp only [ghostRead, hrm2]
            rw [hgr] at h
            exact Except.noConfusion h
          · have hrm2 : readMessage g.st (.msg MsgHave payload) =
                .ok { g.st with bitfield := SetPiece g.st.bitfield i } := by
              rw [hrm, hph]
            have hgr : ghostRead g (.msg MsgHave payload) =
                .ok (⟨{ g.st with bitfield := SetPiece g.st.bitfield i },
                     g.out⟩, true) := by
              simp only [ghostRead, hrm2,
                if_neg (show ¬MsgHave = MsgPiece from by decide)]
            rw [hgr] at h
            exact hgen { g.st with bitfield := SetPiece g.st.bitfield i } rfl rfl rfl
              ((Prod.mk.inj (Except.ok.inj h)).1).symm
        · by_cases h4 : id = MsgPiece
          · subst h4
            have hrm : readMessage g.st (.msg MsgPiece payload) =
                match copyPieceData g.st g.st.index payload with
                | .error e => .error e
                | .ok (n, buf2) =>
                  .ok { g.st with
                        buf := buf2,
                        downloaded := g.st.downloaded + n,
                        backlog := g.st.backlog - 1 } := rfl
            have hcp : copyPieceData g.st g.st.index payload =
                match ParsePieceMessage g.st.index payload with
                | .error e => .error e
                | .ok (b, block) =>
                  if b ≥ g.st.buf.length then .error "begin offset too high"
                  else if b + block.length > g.st.buf.length then
                    .error "data too long"
                  else .ok (block.length, writeAt g.st.buf b block) := rfl
            rcases hpp : ParsePieceMessage g.st.index payload with e2 | pr
            · have hcp2 : copyPieceData g.st g.st.index payload = .error e2 := by
                rw [hcp, hpp]
              have hgr : ghostRead g (.msg MsgPiece payload) = .error e2 := by
                have hrm2 : readMessage g.st (.msg MsgPiece payload) = .error e2 := by
                  rw [hrm, hcp2]
                simp only [ghostRead, hrm2]
              rw [hgr] at h
              exact Except.noConfusion h
            · rcases pr with ⟨b, block⟩
              by_cases hb1 : b ≥ g.st.buf.length
              · have hcp2 : copyPieceData g.st g.st.index payload =
                    .error "begin offset too high" := by
                  rw [hcp, hpp]
                  dsimp only
                  rw [if_pos hb1]
                have hrm2 : readMessage g.st (.msg MsgPiece payload) =
                    .error "begin offset too high" := by
                  rw [hrm, hcp2]
                have hgr : ghostRead g (.msg MsgPiece payload) =
                    .error "begin offset too high" := by
                  simp only [ghostRead, hrm2]
                rw [hgr] at h
                exact Except.noConfusion h
              · by_cases hb2 : b + block.length > g.st.buf.length
                · have hcp2 : copyPieceData g.st g.st.index payload =
                      .error "data too long" := by
                    rw [hcp, hpp]
                    dsimp only
                    rw [if_neg hb1, if_pos hb2]
                  have hrm2 : readMessage g.st (.msg MsgPiece payload) =
                      .error "data too long" := by
                    rw [hrm, hcp2]
                  have hgr : ghostRead g (.msg MsgPiece payload) =
                      .error "data too long" := by
                    simp only [ghostRead, hrm2]
                  rw [hgr] at h
                  exact Except.noConfusion h
                · have hcp2 : copyPieceData g.st g.st.index payload =
                      .ok (block.length, writeAt g.st.buf b block) := by
                    rw [hcp, hpp]
                    dsimp only
                    rw [if_neg hb1, if_neg hb2]
                  have hrm2 : readMessage g.st (.msg MsgPiece payload) =
                      .ok { g.st with
                            buf := writeAt g.st.buf b block,
                            downloaded := g.st.downloaded + block.length,
                            backlog := g.st.backlog - 1 } := by
                    rw [hrm, hcp2]
                  have hgr : ghostRead g (.msg MsgPiece payload) =
                      .ok (⟨{ g.st with
                              buf := writeAt g.st.buf b block,
                              downloaded := g.st.downloaded + block.length,
                              backlog := g.st.backlog - 1 },
                           removeFirst g.out (b, block.length)⟩,
                           decide ((b, block.length) ∈ g.out)) := by
                    simp only [ghostRead, hrm2, hpp,
                      if_pos (show MsgPiece = MsgPiece from rfl), if_true]
                  rw [hgr] at h
                  have hpair := Prod.mk.inj (Except.ok.inj h)
                  have hg := hpair.1
                  have hflag := hpair.2
                  have hmem : (b, block.length) ∈ g.out :=
                    of_decide_eq_true hflag
                  obtain ⟨i1, i2, i3⟩ := hinv
                  have hsum := outSum_removeFirst g.out (b, block.length) hmem
                  have hlen := removeFirst_length g.out (b, block.length) hmem
                  rw [← hg]
                  refine ⟨?_, ?_, ?_⟩ <;> dsimp only
                  · dsimp only at hsum
                    omega
                  · omega
                  · exact i3
          · have hrm2 : readMessage g.st (.msg id payload) = .ok g.st := by
              simp only [readMessage, if_neg h1, if_neg h2, if_neg h3, if_neg h4]
            have hgr : ghostRead g (.msg id payload) =
                .ok (⟨g.st, g.out⟩, true) := by
              simp only [ghostRead, hrm2, if_neg h4]
            rw [hgr] at h
            exact hgen g.st rfl rfl rfl ((Prod.mk.inj (Except.ok.inj h)).1).symm

theorem ghostIter_inv (len : Nat) (g g2 : GState) (m : Msg)
    (h : ghostIter len g m = .ok (g2, true)) (hinv : ghostInv len g) :
    ghostInv len g2 := by
  rw [ghostIter] at h
  by_cases hd : g.st.downloaded < len
  · rw [if_pos hd] at h
    have hsend : ghostInv len (ghostSend len g) := by
      rw [ghostSend]
      cases hch : g.st.choked
      · simp only [hch, Bool.false_eq_true, if_false]
        exact sendRequestsG_inv len (len + 1) g hinv
      · simp only [hch, if_true]
        exact hinv
    exact ghostRead_inv len (ghostSend len g) g2 m h hsend
  · rw [if_neg hd] at h
    simp only [Except.ok.injEq, Prod.mk.injEq] at h
    obtain ⟨hg, -⟩ := h
    rw [← hg]
    exact hinv

theorem ghostRun_inv (len : Nat) :
    ∀ (msgs : List Msg) (g g2 : GState),
      ghostRun len msgs g = .ok (g2, true) → ghostInv len g → ghostInv len g2 := by
  intro msgs
  induction msgs with
  | nil =>
    intro g g2 h hinv
    simp only [ghostRun, Except.ok.injEq, Prod.mk.injEq] at h
    obtain ⟨hg, -⟩ := h
    rw [← hg]
    exact hinv
  | cons m rest ih =>
    intro g g2 h hinv
    rw [ghostRun] at h
    rcases hi : ghostIter len g m with e | pr
    · rw [hi] at h
      exact absurd h (by simp)
    · rcases pr with ⟨ga, ok1⟩
      rw [hi] at h
      dsimp only at h
      rcases hr2 : ghostRun len rest ga with e2 | pr2
      · rw [hr2] at h
        exact absurd h (by simp)
      · rcases pr2 with ⟨gb, ok2⟩
        rw [hr2] at h
        dsimp only at h
        simp only [Except.ok.injEq, Prod.mk.injEq, Bool.and_eq_true] at h
        obtain ⟨hg, hok1, hok2⟩ := h
        have hinva := ghostIter_inv len g ga m (by rw [hi, hok1]) hinv
        have hinvb := ih ga gb (by rw [hr2, hok2]) hinva
        rw [← hg]
        exact hinvb


/-- C3 counterexample: the claim says `downloaded ≤ requested ≤ length`
and `backlog ≥ 0` hold after every loop iteration for every sequence of
incoming peer messages, but one unsolicited `piece` message (index 0,
begin 0, a 1-byte block) arriving while still choked drives the state of
a 2-byte piece download to `downloaded = 1 > requested = 0` and
`backlog = -1`. -/
theorem c3_counterexample :
    runLoop 2 [Msg.msg 7 [0, 0, 0, 0, 0, 0, 0, 0, 7]] (initState 0 [] 2) =
      .ok ⟨0, true, [], [7, 0], 1, 0, -1⟩ ∧
    ¬((⟨0, true, [], [7, 0], 1, 0, -1⟩ : DState).downloaded ≤
        (⟨0, true, [], [7, 0], 1, 0, -1⟩ : DState).requested) ∧
    ¬(0 ≤ (⟨0, true, [], [7, 0], 1, 0, -1⟩ : DState).backlog) :=
  ⟨by decide, by decide, by decide⟩

/-- C3 (amended): the loop invariants hold for every message sequence
from a *well-behaved* peer — one whose every accepted `piece` block
answers an outstanding request, as recorded by the ghost-instrumented
run (`ghostRun` erases to the real `runLoop`, and its flag is `true`
exactly when every accepted block matched an outstanding request).
From a ghost state satisfying the invariant (such as the initial state),
after the whole run `downloaded ≤ requested ≤ length` and
`backlog ≥ 0`.  Unconditionally — against an arbitrary peer — the
invariants can fail (`c3_counterexample`). -/
theorem c3_loop_invariants (len : Nat) (msgs : List Msg) (g0 g : GState)
    (hinv : ghostInv len g0)
    (h : ghostRun len msgs g0 = .ok (g, true)) :
    runLoop len msgs g0.st = .ok g.st ∧
    g.st.downloaded ≤ g.st.requested ∧ g.st.requested ≤ len ∧
    0 ≤ g.st.backlog := by
  have hrun := ghostRun_st len msgs g0
  rw [h] at hrun
  simp only [Except.map] at hrun
  obtain ⟨i1, i2, i3⟩ := ghostRun_inv len msgs g0 g h hinv
  refine ⟨hrun.symm, by omega, i3, by omega⟩

/-- The message trace for the C3 witness: an `unchoke`, then the single
requested 2-byte block of a 2-byte piece. -/
def exMsgs : List Msg :=
  [Msg.msg 1 [], Msg.msg 7 [0, 0, 0, 0, 0, 0, 0, 0, 7, 7]]

/-- Initial ghost state of the C3 witness: fresh download of a 2-byte
piece, no outstanding requests. -/
def exG0 : GState := ⟨initState 0 [] 2, []⟩

/-- Final ghost state of the C3 witness: the block arrived, the request
list is empty again. -/
def exGfin : GState := ⟨⟨0, false, [], [7, 7], 2, 2, 0⟩, []⟩

/-- Witness for C3's amended theorem on a concrete well-behaved trace. -/
theorem c3_witness :
    runLoop 2 exMsgs exG0.st = .ok exGfin.st ∧
    exGfin.st.downloaded ≤ exGfin.st.requested ∧ exGfin.st.requested ≤ 2 ∧
    0 ≤ exGfin.st.backlog :=
  c3_loop_invariants 2 exMsgs exG0 exGfin ⟨by decide, by decide, by decide⟩
    (by decide)

/-- A `piece` payload shorter than 8 bytes is rejected by the parser. -/
theorem ParsePieceMessage_short (index : Nat) (buf : List Nat)
    (h : buf.length < 8) :
    ParsePieceMessage index buf = .error "piece message payload too short" := by
  rcases buf with - | ⟨a0, buf⟩
  · rfl
  rcases buf with - | ⟨a1, buf⟩
  · rfl
  rcases buf with - | ⟨a2, buf⟩
  · rfl
  rcases buf with - | ⟨a3, buf⟩
  · rfl
  rcases buf with - | ⟨a4, buf⟩
  · rfl
  rcases buf with - | ⟨a5, buf⟩
  · rfl
  rcases buf with - | ⟨a6, buf⟩
  · rfl
  rcases buf with - | ⟨a7, buf⟩
  · rfl
  simp only [List.length_cons] at h
  omega

set_option maxRecDepth 2000 in
/-- C7: a `piece` message for the current job is accepted exactly when
its embedded index matches `st.index`, `begin < |buf|` and
`begin + |block| ≤ |buf|`; on acceptance the block is copied into the
buffer at offset `begin`, `downloaded` grows by `|block|` and `backlog`
drops by one; any violation — wrong index, out-of-range offsets, or a
payload shorter than 8 bytes — is an error. -/
theorem c7_piece_acceptance (st : DState) (b0 b1 b2 b3 b4 b5 b6 b7 : Nat)
    (block : List Nat) :
    (readMessage st (.msg MsgPiece ([b0, b1, b2, b3, b4, b5, b6, b7] ++ block)) =
        .ok ⟨st.index, st.choked, st.bitfield,
             writeAt st.buf (be32 b4 b5 b6 b7) block,
             st.downloaded + block.length, st.requested, st.backlog - 1⟩ ↔
      (be32 b0 b1 b2 b3 = st.index ∧ be32 b4 b5 b6 b7 < st.buf.length ∧
       be32 b4 b5 b6 b7 + block.length ≤ st.buf.length)) ∧
    (¬(be32 b0 b1 b2 b3 = st.index ∧ be32 b4 b5 b6 b7 < st.buf.length ∧
        be32 b4 b5 b6 b7 + block.length ≤ st.buf.length) →
      ∃ e, readMessage st
        (.msg MsgPiece ([b0, b1, b2, b3, b4, b5, b6, b7] ++ block)) = .error e) ∧
    (∀ payload : List Nat, payload.length < 8 →
      ∃ e, readMessage st (.msg MsgPiece payload) = .error e) := by
  have hrm : ∀ payload : List Nat, readMessage st (.msg MsgPiece payload) =
      match copyPieceData st st.index payload with
      | .error e => .error e
      | .ok (n, buf2) =>
        .ok { st with
              buf := buf2,
              downloaded := st.downloaded + n,
              backlog := st.backlog - 1 } := fun _ => rfl
  have hpp : ParsePieceMessage st.index ([b0, b1, b2, b3, b4, b5, b6, b7] ++ block) =
      if be32 b0 b1 b2 b3 ≠ st.index then .error "piece message has wrong index"
      else .ok (be32 b4 b5 b6 b7, block) := rfl
  have hshort : ∀ payload : List Nat, payload.length < 8 →
      ∃ e, readMessage st (.msg MsgPiece payload) = .error e := by
    intro payload hlen
    refine ⟨"piece message payload too short", ?_⟩
    rw [hrm payload]
    rw [show copyPieceData st st.index payload =
          .error "piece message payload too short" from by
      rw [copyPieceData, ParsePieceMessage_short st.index payload hlen]]
  by_cases h1 : be32 b0 b1 b2 b3 = st.index
  · by_cases h2 : be32 b4 b5 b6 b7 < st.buf.length
    · by_cases h3 : be32 b4 b5 b6 b7 + block.length ≤ st.buf.length
      · have hcp : copyPieceData st st.index
            ([b0, b1, b2, b3, b4, b5, b6, b7] ++ block) =
            .ok (block.length, writeAt st.buf (be32 b4 b5 b6 b7) block) := by
          rw [copyPieceData, hpp, if_neg (not_not_intro h1)]
          dsimp only
          rw [if_neg (by omega), if_neg (by omega)]
        refine ⟨?_, fun hn => absurd ⟨h1, h2, h3⟩ hn, hshort⟩
        constructor
        · intro _
          exact ⟨h1, h2, h3⟩
        · intro _
          rw [hrm, hcp]
      · have hcp : copyPieceData st st.index
            ([b0, b1, b2, b3, b4, b5, b6, b7] ++ block) =
            .error "data too long" := by
          rw [copyPieceData, hpp, if_neg (not_not_intro h1)]
          dsimp only
          rw [if_neg (by omega), if_pos (by omega)]
        have herr : readMessage st
            (.msg MsgPiece ([b0, b1, b2, b3, b4, b5, b6, b7] ++ block)) =
            .error "data too long" := by
          rw [hrm, hcp]
        refine ⟨?_, fun _ => ⟨_, herr⟩, hshort⟩
        constructor
        · intro hok
          rw [herr] at hok
          exact Except.noConfusion hok
        · intro hc
          exact absurd hc.2.2 h3
    · have hcp : copyPieceData st st.index
          ([b0, b1, b2, b3, b4, b5, b6, b7] ++ block) =
          .error "begin offset too high" := by
        rw [copyPieceData, hpp, if_neg (not_not_intro h1)]
        dsimp only
        rw [if_pos (by omega)]
      have herr : readMessage st
          (.msg MsgPiece ([b0, b1, b2, b3, b4, b5, b6, b7] ++ block)) =
          .error "begin offset too high" := by
        rw [hrm, hcp]
      refine ⟨?_, fun _ => ⟨_, herr⟩, hshort⟩
      constructor
      · intro hok
        rw [herr] at hok
        exact Except.noConfusion hok
      · intro hc
        exact absurd hc.2.1 h2
  · have hcp : copyPieceData st st.index
        ([b0, b1, b2, b3, b4, b5, b6, b7] ++ block) =
        .error "piece message has wrong index" := by
      rw [copyPieceData, hpp, if_pos h1]
    have herr : readMessage st
        (.msg MsgPiece ([b0, b1, b2, b3, b4, b5, b6, b7] ++ block)) =
        .error "piece message has wrong index" := by
      rw [hrm, hcp]
    refine ⟨?_, fun _ => ⟨_, herr⟩, hshort⟩
    constructor
    · intro hok
      rw [herr] at hok
      exact Except.noConfusion hok
    · intro hc
      exact absurd hc.1 h1

/-- A concrete state for the C7 witness: index 0, a 2-byte buffer. -/
def exSt : DState := ⟨0, false, [], [0, 0], 0, 0, 0⟩

/-- Witness for C7 at concrete inputs: an in-range block for index 0 is
accepted with the stated state change; a wrong-index payload and a
short payload are errors. -/
theorem c7_witness :
    readMessage exSt (.msg MsgPiece ([0, 0, 0, 0, 0, 0, 0, 1] ++ [9])) =
      .ok ⟨exSt.index, exSt.choked, exSt.bitfield,
           writeAt exSt.buf (be32 0 0 0 1) [9],
           exSt.downloaded + [9].length, exSt.requested, exSt.backlog - 1⟩ ∧
    (∃ e, readMessage exSt
        (.msg MsgPiece ([0, 0, 0, 9, 0, 0, 0, 0] ++ [5])) = .error e) ∧
    (∃ e, readMessage exSt (.msg MsgPiece [1, 2, 3]) = .error e) :=
  ⟨(c7_piece_acceptance exSt 0 0 0 0 0 0 0 1 [9]).1.mpr (by decide),
   (c7_piece_acceptance exSt 0 0 0 9 0 0 0 0 [5]).2.1 (by decide),
   (c7_piece_acceptance exSt 0 0 0 0 0 0 0 0 []).2.2 [1, 2, 3] (by decide)⟩

end Client
